import Mathlib

/-!
Verification of the fingerprinting / winnowing plagiarism-detection core.

Shallow embedding of the TypeScript source:
  * `TokenHash.hashToken` (hashing system)
  * `RollingHash` (incremental k-gram hash)
  * `WinnowFilter.fingerprints` (winnowing selection)
  * `Region` (row/column spans: validity, merge, overlap)
  * `PascalPlagiarismDetector.compareTwoFiles` (Jaccard similarity over
    distinct fingerprint hashes)
  * `PascalPlagiarismDetector.clusterMatchesIntoRegions` (greedy clustering
    of matched fingerprints into shared regions)

JavaScript numbers are IEEE doubles, but every arithmetic operation the
embedded code performs stays far below 2^53 in magnitude (the modulus is
below 2^26 and the bases below 2^23, so all intermediate products are below
2^51), hence Nat/Int arithmetic is exact for it.  The JavaScript `%` on
possibly-negative numbers (truncated remainder, sign of the dividend) is
modelled explicitly by `jsRem`.  The two float divisions that reach the
similarity / confidence scores are modelled over ℚ.
-/

/-- `TokenHash.mod` and `RollingHash.mod` (the source uses the same constant,
commented "26-bit prime", in both classes). -/
def hashMod : Nat := 33554393

/-- `TokenHash.base`. -/
def tokenHashBase : Nat := 747287

/-- `RollingHash.base`. -/
def rollingHashBase : Nat := 4194301

/-- `Number.MAX_SAFE_INTEGER`, the sentinel filling the winnowing buffer. -/
def maxSafeInteger : Nat := 2 ^ 53 - 1

/-- `TokenHash.hashToken`: iterate the token's characters,
`hash = ((hash + charCode) * base) % mod`.  (`charCodeAt` yields UTF-16 code
units; all tokens the system produces are ASCII, where code units and code
points agree, so `Char.toNat` is a faithful model.) -/
def hashToken (token : String) : Nat :=
  token.data.foldl (fun hash c => ((hash + c.toNat) * tokenHashBase) % hashMod) 0

/-- `RollingHash.modPow`'s loop
`while (e > 1) { if (e & 1) y = b*y % m; b = b*b % m; e >>= 1 }; return b*y % m`.
The loop halves `e` each iteration, so running it with `fuel = e` iterations
of budget reproduces it exactly; the fuel only makes the recursion
structural. -/
def modPowGo (m : Nat) : Nat → Nat → Nat → Nat → Nat
  | 0, b, y, _ => b * y % m
  | fuel + 1, b, y, e =>
    if 1 < e then
      modPowGo m fuel (b * b % m) (if e % 2 = 1 then b * y % m else y) (e / 2)
    else b * y % m

/-- `RollingHash.modPow(base, exp, mod)`. -/
def modPow (b e m : Nat) : Nat := modPowGo m e b 1 e

/-- The state of a `RollingHash` object: window length `k`, the precomputed
`maxBase = mod - base^k mod mod`, the circular buffer `memory` of the last
`k` token hashes, its write index `i`, and the running `hash`. -/
structure RollingHash where
  k : Nat
  maxBase : Nat
  memory : List Nat
  i : Nat
  hash : Nat
deriving Repr, DecidableEq

/-- The `RollingHash` constructor. -/
def RollingHash.init (k : Nat) : RollingHash :=
  { k := k
    maxBase := hashMod - modPow rollingHashBase k hashMod
    memory := List.replicate k 0
    i := 0
    hash := 0 }

/-- `RollingHash.nextHash`: consume one token hash, returning the updated
object and the returned window hash. -/
def RollingHash.nextHash (rh : RollingHash) (token : Nat) : RollingHash × Nat :=
  let h := (rollingHashBase * rh.hash + token + rh.maxBase * rh.memory.getD rh.i 0) % hashMod
  ({ rh with memory := rh.memory.set rh.i token, i := (rh.i + 1) % rh.k, hash := h }, h)

/-- Feed a list of token hashes through `nextHash`, keeping the final state. -/
def rollFeed (rh : RollingHash) (tokens : List Nat) : RollingHash :=
  tokens.foldl (fun r t => (r.nextHash t).1) rh

/-- The non-incremental Horner-style reference hash of one window of token
hashes: `fold h := (base * h + x) % mod`, i.e.
`sum of window[j] * base^(len-1-j) mod mod`. -/
def refHash (window : List Nat) : Nat :=
  window.foldl (fun h x => (rollingHashBase * h + x) % hashMod) 0

/-- The hash of the `k`-gram of token hashes starting at position `p`. -/
def kgramHash (k : Nat) (hs : List Nat) (p : Nat) : Nat :=
  refHash ((hs.drop p).take k)

/-- A winnowing fingerprint: optional literal k-gram `data`, the selected
`hash`, and the inclusive token span `start`/`stop` of its k-gram. -/
structure Fingerprint where
  data : Option (List String)
  hash : Nat
  start : Int
  stop : Int
deriving Repr, DecidableEq

/-- JavaScript `a % b` for integers (truncated remainder: the result carries
the sign of the dividend), for a positive divisor `b`.  The source evaluates
`(minPos - bufferPos - windowSize) % windowSize` on a negative dividend. -/
def jsRem (a b : Int) : Int := if a < 0 then -((-a) % b) else a % b

/-- The loop state of `WinnowFilter.fingerprints`. -/
structure WFState where
  rh : RollingHash
  filePos : Int
  bufferPos : Nat
  minPos : Nat
  buffer : List Nat
  fps : List Fingerprint
deriving Repr, DecidableEq

/-- Build the emitted fingerprint: `start = filePos + (minPos - bufferPos - w) % w`
(JavaScript remainder), `stop = start + k - 1`, hash read from the buffer,
and `data = tokens.slice(start, start + k)` when `kgramData` is set. -/
def mkFp (k w : Nat) (kgramData : Bool) (tokens : List String) (buffer : List Nat)
    (minPos bufferPos : Nat) (filePos : Int) : Fingerprint :=
  let start : Int := filePos + jsRem ((minPos : Int) - (bufferPos : Int) - (w : Int)) (w : Int)
  { data := if kgramData then some ((tokens.drop start.toNat).take k) else none
    hash := buffer.getD minPos 0
    start := start
    stop := start + (k : Int) - 1 }

/-- The re-scan `for (let i = (bufferPos+1) % w; i !== bufferPos; i = (i+1) % w)
if (buffer[i] <= buffer[minPos]) minPos = i`: visit the other `w - 1` slots
from oldest to newest, starting from `minPos = bufferPos` (the just-written
slot). -/
def rescanMin (w : Nat) (buffer : List Nat) (bufferPos : Nat) : Nat :=
  ((List.range (w - 1)).map fun j => (bufferPos + 1 + j) % w).foldl
    (fun mp i => if buffer.getD i 0 ≤ buffer.getD mp 0 then i else mp) bufferPos

/-- The selection part of one main-loop iteration of
`WinnowFilter.fingerprints`, after `bufferPos` was advanced and the new
window hash written (`st.minPos` still holds the previous minimum slot). -/
def winnowEmit (k w : Nat) (kgramData : Bool) (tokens : List String) (st : WFState) : WFState :=
  if st.minPos = st.bufferPos then
    { st with
      minPos := rescanMin w st.buffer st.bufferPos,
      fps := st.fps ++
        [mkFp k w kgramData tokens st.buffer (rescanMin w st.buffer st.bufferPos) st.bufferPos st.filePos] }
  else if st.buffer.getD st.bufferPos 0 ≤ st.buffer.getD st.minPos 0 then
    { st with
      minPos := st.bufferPos,
      fps := st.fps ++ [mkFp k w kgramData tokens st.buffer st.bufferPos st.bufferPos st.filePos] }
  else st

/-- One loop iteration of `WinnowFilter.fingerprints` for one incoming token
hash: advance `filePos`; during warm-up (`filePos < 0`) only feed the rolling
hash; otherwise advance `bufferPos`, write the new window hash into the
buffer and run the selection rule. -/
def winnowStep (k w : Nat) (kgramData : Bool) (tokens : List String) (st : WFState)
    (ht : Nat) : WFState :=
  if st.filePos + 1 < 0 then
    { st with rh := (st.rh.nextHash ht).1, filePos := st.filePos + 1 }
  else
    winnowEmit k w kgramData tokens
      { rh := (st.rh.nextHash ht).1
        filePos := st.filePos + 1
        bufferPos := (st.bufferPos + 1) % w
        minPos := st.minPos
        buffer := st.buffer.set ((st.bufferPos + 1) % w) (st.rh.nextHash ht).2
        fps := st.fps }

/-- The initial loop state of `WinnowFilter.fingerprints`:
`filePos = -k`, `bufferPos = minPos = 0`, buffer filled with
`Number.MAX_SAFE_INTEGER`. -/
def initWinnowState (k w : Nat) : WFState :=
  { rh := RollingHash.init k
    filePos := -(k : Int)
    bufferPos := 0
    minPos := 0
    buffer := List.replicate w maxSafeInteger
    fps := [] }

/-- `WinnowFilter.fingerprints(tokens)` for a filter constructed with
`(k, windowSize, kgramData)`. -/
def fingerprints (k w : Nat) (kgramData : Bool) (tokens : List String) : List Fingerprint :=
  ((tokens.map hashToken).foldl (winnowStep k w kgramData tokens) (initWinnowState k w)).fps

/-- The state after feeding the first `n` token hashes of `tokens` into the
`WinnowFilter.fingerprints` loop. -/
def feedN (k w : Nat) (kgramData : Bool) (tokens : List String) (n : Nat) : WFState :=
  ((tokens.map hashToken).take n).foldl (winnowStep k w kgramData tokens) (initWinnowState k w)

/-- A `Region`: a zero-based row/column span. -/
structure Region where
  startRow : Int
  startCol : Int
  endRow : Int
  endCol : Int
deriving Repr, DecidableEq

/-- `Region.valid`. -/
def Region.valid (startRow startCol endRow endCol : Int) : Bool :=
  decide (startRow < endRow) || (decide (startRow = endRow) && decide (startCol ≤ endCol))

/-- The `Region` constructor: it throws (here: returns `Except.error`) when
the validity check fails, and otherwise yields the fully constructed object. -/
def Region.make (startRow startCol endRow endCol : Int) : Except String Region :=
  if Region.valid startRow startCol endRow endCol then
    Except.ok { startRow := startRow, startCol := startCol, endRow := endRow, endCol := endCol }
  else Except.error "Invalid region"

/-- The four coordinates `Region.merge` computes (the nested ternaries of the
source, verbatim). -/
def Region.mergeTotal (one other : Region) : Region :=
  { startRow :=
      if one.startRow < other.startRow then one.startRow
      else if other.startRow < one.startRow then other.startRow
      else one.startRow
    startCol :=
      if one.startRow < other.startRow then one.startCol
      else if other.startRow < one.startRow then other.startCol
      else min one.startCol other.startCol
    endRow :=
      if other.endRow < one.endRow then one.endRow
      else if one.endRow < other.endRow then other.endRow
      else one.endRow
    endCol :=
      if other.endRow < one.endRow then one.endCol
      else if one.endRow < other.endRow then other.endCol
      else max one.endCol other.endCol }

/-- `Region.merge`: build the merged coordinates and run them through the
(throwing) `Region` constructor. -/
def Region.merge (one other : Region) : Except String Region :=
  Region.make (Region.mergeTotal one other).startRow (Region.mergeTotal one other).startCol
    (Region.mergeTotal one other).endRow (Region.mergeTotal one other).endCol

/-- `Region.compare` (row-major, then column, then end-row, then end-col). -/
def Region.compare (left right : Region) : Int :=
  if left.startRow - right.startRow ≠ 0 then left.startRow - right.startRow
  else if left.startCol - right.startCol ≠ 0 then left.startCol - right.startCol
  else if left.endRow - right.endRow ≠ 0 then left.endRow - right.endRow
  else left.endCol - right.endCol

/-- `Region.overlapsWith`: sort the two regions by `Region.compare`, then the
earlier one's end must not be strictly before the later one's start. -/
def Region.overlapsWith (self other : Region) : Bool :=
  let lr := if 0 < Region.compare self other then (other, self) else (self, other)
  if lr.1.endRow < lr.2.startRow then false
  else if lr.1.endRow = lr.2.startRow then decide (lr.2.startCol < lr.1.endCol)
  else true

/-- The lexicographic row/column order `(r, c) ≤ (r2, c2)`; `Region.valid`
says exactly that the start is `posLe` the end. -/
def posLe (r c r2 c2 : Int) : Prop := r < r2 ∨ (r = r2 ∧ c ≤ c2)

/-- `outer` covers `inner`: outer's start is at or before inner's start and
outer's end at or after inner's end (both lexicographically). -/
def Region.covers (outer inner : Region) : Prop :=
  posLe outer.startRow outer.startCol inner.startRow inner.startCol ∧
  posLe inner.endRow inner.endCol outer.endRow outer.endCol

/-- The set of distinct fingerprint hashes `generateFingerprints` produces
for a file (`fingerprints: new Set(fingerprints.map(f => f.hash))`), with the
short-input guard returning the empty set when `tokens.length < kgramSize`.
The detector's filter is constructed with `kgramData = true`. -/
def generateFingerprintHashes (k w : Nat) (tokens : List String) : Finset Nat :=
  if tokens.length < k then ∅
  else ((fingerprints k w true tokens).map Fingerprint.hash).toFinset

/-- The Jaccard index of two finite hash sets (with the `0 / 0 = 0`
convention of ℚ for two empty sets). -/
def jaccardIndex (s1 s2 : Finset Nat) : ℚ :=
  ((s1 ∩ s2).card : ℚ) / ((s1 ∪ s2).card : ℚ)

/-- The `similarity` computed by `PascalPlagiarismDetector.compareTwoFiles`:
`union.size > 0 ? intersection.size / union.size : 0` over the two files'
distinct fingerprint hash sets. -/
def compareTwoFilesSimilarity (k w : Nat) (tokens1 tokens2 : List String) : ℚ :=
  if 0 < ((generateFingerprintHashes k w tokens1) ∪ (generateFingerprintHashes k w tokens2)).card then
    (((generateFingerprintHashes k w tokens1) ∩ (generateFingerprintHashes k w tokens2)).card : ℚ) /
      (((generateFingerprintHashes k w tokens1) ∪ (generateFingerprintHashes k w tokens2)).card : ℚ)
  else 0

/-- An inclusive integer range `{ start, end }` of the detector's result
records. -/
structure IntRange where
  lo : Int
  hi : Int
deriving Repr, DecidableEq

/-- The fields of an `EnhancedFingerprint` that the clustering reads
(`position = start` for fingerprints, but the code stores both). -/
structure ClusterFp where
  position : Int
  start : Int
  stop : Int
deriving Repr, DecidableEq

/-- One candidate match `{ fp1, fp2, distance }` between the two files. -/
structure MatchPair where
  fp1 : ClusterFp
  fp2 : ClusterFp
  distance : Int
deriving Repr, DecidableEq

/-- `estimatePosition`: `line = floor(tokenIndex / 10) + 1`,
`column = tokenIndex % 10 + 1`. -/
def estimatePosition (tokenIndex : Int) : Int × Int :=
  (tokenIndex / 10 + 1, jsRem tokenIndex 10 + 1)

/-- `Math.min(...l)` for the nonempty argument lists the clustering builds. -/
def listMinLoop (l : List Int) : Int :=
  match l with
  | [] => 0
  | x :: xs => xs.foldl min x

/-- `Math.max(...l)` for the nonempty argument lists the clustering builds. -/
def listMaxLoop (l : List Int) : Int :=
  match l with
  | [] => 0
  | x :: xs => xs.foldl max x

/-- A reconstructed `SharedRegion`.  (`region1`/`region2` are built by the
`Region` constructor from `estimatePosition` outputs; those coordinates are
monotone in the token index, so the validity check always passes and the
construction is modelled as total.) -/
structure SharedRegion where
  file1Range : IntRange
  file2Range : IntRange
  file1Lines : IntRange
  file2Lines : IntRange
  sharedTokens : List String
  confidence : ℚ
  region1 : Region
  region2 : Region
deriving Repr, DecidableEq

/-- `createSharedRegion`: span each file by the min start / max stop of the
cluster, extract the covered tokens of file 1, and score
`confidence = min(1, clusterDensity * 0.8 + regionLength / (k*5) * 0.2)`
with `clusterDensity = cluster.length / max(1, regionLength / k)` (float
divisions, modelled over ℚ). -/
def createSharedRegion (k : Nat) (tokens1 tokens2 : List String)
    (cluster : List MatchPair) : SharedRegion :=
  let s1 := listMinLoop (cluster.map fun m => m.fp1.start)
  let e1 := listMaxLoop (cluster.map fun m => m.fp1.stop)
  let s2 := listMinLoop (cluster.map fun m => m.fp2.start)
  let e2 := listMaxLoop (cluster.map fun m => m.fp2.stop)
  let regionLength : ℚ := ((e1 - s1 + 1 : Int) : ℚ)
  let clusterDensity : ℚ := (cluster.length : ℚ) / max 1 (regionLength / (k : ℚ))
  let confidence : ℚ := min 1 (clusterDensity * (4 / 5) + regionLength / ((k : ℚ) * 5) * (1 / 5))
  let p1 := estimatePosition s1
  let q1 := estimatePosition e1
  let p2 := estimatePosition s2
  let q2 := estimatePosition e2
  { file1Range := ⟨s1, e1⟩
    file2Range := ⟨s2, e2⟩
    file1Lines := ⟨p1.1, q1.1⟩
    file2Lines := ⟨p2.1, q2.1⟩
    sharedTokens := (tokens1.drop s1.toNat).take (e1 + 1 - s1).toNat
    confidence := confidence
    region1 := ⟨p1.1, p1.2, q1.1, q1.2⟩
    region2 := ⟨p2.1, p2.2, q2.1, q2.2⟩ }

/-- The `shouldMerge` test of `clusterMatchesIntoRegions`:
`gap1 = fp1.position - last.fp1.stop`,
`gap2 = |fp2.position - last.fp2.stop|`,
`positionDrift = |(Δ position in file 1) - (Δ position in file 2)|`;
merge iff `gap1 ≤ 2k` and `gap2 ≤ 2k` and `positionDrift ≤ k`. -/
def shouldMergeMatch (kgramSize : Nat) (lastMatch m : MatchPair) : Bool :=
  decide (m.fp1.position - lastMatch.fp1.stop ≤ (kgramSize : Int) * 2) &&
  decide (|m.fp2.position - lastMatch.fp2.stop| ≤ (kgramSize : Int) * 2) &&
  decide (|(m.fp1.position - lastMatch.fp1.position) -
            (m.fp2.position - lastMatch.fp2.position)| ≤ (kgramSize : Int))

/-- One iteration of the clustering loop of `clusterMatchesIntoRegions`:
an empty current cluster adopts the match; otherwise the match joins when
`shouldMerge` holds against the cluster's last match, and otherwise the
cluster is closed (emitting a `SharedRegion` only when it has at least two
matches) and a new cluster starts with the match. -/
def clusterStep (k : Nat) (tokens1 tokens2 : List String)
    (acc : List SharedRegion × List MatchPair) (m : MatchPair) :
    List SharedRegion × List MatchPair :=
  match acc with
  | (regions, []) => (regions, [m])
  | (regions, c :: cs) =>
    if shouldMergeMatch k ((c :: cs).getLast (List.cons_ne_nil c cs)) m then
      (regions, (c :: cs) ++ [m])
    else
      (regions ++ (if 2 ≤ (c :: cs).length then [createSharedRegion k tokens1 tokens2 (c :: cs)] else []),
        [m])

/-- The merge of two overlapping `SharedRegion`s in `mergeOverlappingRegions`. -/
def mergeTwoSharedRegions (current next : SharedRegion) : SharedRegion :=
  { file1Range := ⟨min current.file1Range.lo next.file1Range.lo,
      max current.file1Range.hi next.file1Range.hi⟩
    file2Range := ⟨min current.file2Range.lo next.file2Range.lo,
      max current.file2Range.hi next.file2Range.hi⟩
    file1Lines := ⟨(Region.mergeTotal current.region1 next.region1).startRow,
      (Region.mergeTotal current.region1 next.region1).endRow⟩
    file2Lines := ⟨(Region.mergeTotal current.region2 next.region2).startRow,
      (Region.mergeTotal current.region2 next.region2).endRow⟩
    sharedTokens := current.sharedTokens ++ next.sharedTokens
    confidence := max current.confidence next.confidence
    region1 := Region.mergeTotal current.region1 next.region1
    region2 := Region.mergeTotal current.region2 next.region2 }

/-- The fold of `mergeOverlappingRegions` over the sorted region list. -/
def mergeOverlapLoop : SharedRegion → List SharedRegion → List SharedRegion → List SharedRegion
  | current, merged, [] => merged ++ [current]
  | current, merged, next :: rest =>
    if current.region1.overlapsWith next.region1 then
      mergeOverlapLoop (mergeTwoSharedRegions current next) merged rest
    else mergeOverlapLoop next (merged ++ [current]) rest

/-- `mergeOverlappingRegions`. -/
def mergeOverlappingRegions (regions : List SharedRegion) : List SharedRegion :=
  if regions.length ≤ 1 then regions
  else
    match regions.mergeSort (fun a b => a.file1Range.lo ≤ b.file1Range.lo) with
    | [] => []
    | first :: rest => mergeOverlapLoop first [] rest

/-- `clusterMatchesIntoRegions`: fold the clustering step over the sorted
matches, flush the final cluster (again only when it has at least two
matches), and merge overlapping regions. -/
def clusterMatchesIntoRegions (k : Nat) (tokens1 tokens2 : List String)
    (ms : List MatchPair) : List SharedRegion :=
  mergeOverlappingRegions
    ((ms.foldl (clusterStep k tokens1 tokens2) ([], [])).1 ++
      (if 2 ≤ (ms.foldl (clusterStep k tokens1 tokens2) ([], [])).2.length then
        [createSharedRegion k tokens1 tokens2 (ms.foldl (clusterStep k tokens1 tokens2) ([], [])).2]
      else []))

/-! ### Arithmetic groundwork -/

instance : NeZero hashMod := ⟨by decide⟩

theorem hashMod_pos : 0 < hashMod := by decide

theorem modPowGo_spec (m : Nat) : ∀ fuel e, 1 ≤ e → e ≤ fuel → ∀ b y,
    modPowGo m fuel b y e = b ^ e * y % m := by
  intro fuel
  induction fuel with
  | zero => intro e h1 h2; omega
  | succ fuel ih =>
    intro e h1 h2 b y
    by_cases hgt : 1 < e
    · have hrec : modPowGo m (fuel + 1) b y e =
          modPowGo m fuel (b * b % m) (if e % 2 = 1 then b * y % m else y) (e / 2) := by
        simp [modPowGo, hgt]
      rw [hrec, ih (e / 2) (by omega) (by omega)]
      by_cases hodd : e % 2 = 1
      · rw [if_pos hodd]
        have he : e = 2 * (e / 2) + 1 := by omega
        have hc : (b * b % m) ^ (e / 2) * (b * y % m) % m =
            (b * b) ^ (e / 2) * (b * y) % m :=
          ((Nat.mod_modEq (b * b) m).pow (e / 2)).mul (Nat.mod_modEq (b * y) m)
        rw [hc]
        congr 1
        calc (b * b) ^ (e / 2) * (b * y) = b ^ (2 * (e / 2) + 1) * y := by ring
        _ = b ^ e * y := by rw [← he]
      · rw [if_neg hodd]
        have he : e = 2 * (e / 2) := by omega
        have hc : (b * b % m) ^ (e / 2) * y % m = (b * b) ^ (e / 2) * y % m :=
          ((Nat.mod_modEq (b * b) m).pow (e / 2)).mul_right y
        rw [hc]
        congr 1
        calc (b * b) ^ (e / 2) * y = b ^ (2 * (e / 2)) * y := by ring
        _ = b ^ e * y := by rw [← he]
    · have he : e = 1 := by omega
      subst he
      simp [modPowGo, pow_one]

theorem modPow_spec (b e m : Nat) (he : 1 ≤ e) : modPow b e m = b ^ e % m := by
  rw [modPow, modPowGo_spec m e e he (le_refl e) b 1, mul_one]

theorem refHash_foldl_lt (l : List Nat) : ∀ a, a < hashMod →
    l.foldl (fun h x => (rollingHashBase * h + x) % hashMod) a < hashMod := by
  induction l with
  | nil => intro a ha; exact ha
  | cons x xs ih =>
    intro a ha
    exact ih _ (Nat.mod_lt _ hashMod_pos)

theorem refHash_lt (l : List Nat) : refHash l < hashMod :=
  refHash_foldl_lt l 0 (by decide)

theorem natCast_hashMod_inj {a b : Nat} (ha : a < hashMod) (hb : b < hashMod)
    (h : (a : ZMod hashMod) = (b : ZMod hashMod)) : a = b := by
  rw [← ZMod.val_cast_of_lt ha, ← ZMod.val_cast_of_lt hb, h]

/-- The Horner evaluation over `ZMod hashMod`, starting from `a`. -/
def hornerZ (a : ZMod hashMod) (l : List Nat) : ZMod hashMod :=
  l.foldl (fun h (x : Nat) => (rollingHashBase : ZMod hashMod) * h + (x : ZMod hashMod)) a

theorem refHash_foldl_cast (l : List Nat) : ∀ a : Nat,
    ((l.foldl (fun h x => (rollingHashBase * h + x) % hashMod) a : Nat) : ZMod hashMod) =
      hornerZ (a : ZMod hashMod) l := by
  induction l with
  | nil => intro a; rfl
  | cons x xs ih =>
    intro a
    show ((xs.foldl _ ((rollingHashBase * a + x) % hashMod) : Nat) : ZMod hashMod) =
      hornerZ ((rollingHashBase : ZMod hashMod) * a + x) xs
    rw [ih]
    congr 1
    rw [ZMod.natCast_mod]
    push_cast
    ring

theorem refHash_cast (l : List Nat) :
    ((refHash l : Nat) : ZMod hashMod) = hornerZ 0 l := by
  have h := refHash_foldl_cast l 0
  simpa using h

theorem hornerZ_append (a : ZMod hashMod) (l1 l2 : List Nat) :
    hornerZ a (l1 ++ l2) = hornerZ (hornerZ a l1) l2 := by
  simp only [hornerZ, List.foldl_append]

theorem hornerZ_shift (l : List Nat) : ∀ a : ZMod hashMod,
    hornerZ a l = a * (rollingHashBase : ZMod hashMod) ^ l.length + hornerZ 0 l := by
  induction l with
  | nil => intro a; simp [hornerZ]
  | cons x xs ih =>
    intro a
    show hornerZ ((rollingHashBase : ZMod hashMod) * a + x) xs = _
    rw [ih ((rollingHashBase : ZMod hashMod) * a + x)]
    have h0 : hornerZ 0 (x :: xs) = hornerZ ((x : ZMod hashMod)) xs := by
      show hornerZ ((rollingHashBase : ZMod hashMod) * 0 + x) xs = _
      ring_nf
    rw [h0, ih ((x : ZMod hashMod))]
    simp [List.length_cons, pow_succ]
    ring

/-! ### Small list helpers -/

theorem getD_set_self {α : Type} (l : List α) (i : Nat) (x d : α) (h : i < l.length) :
    (l.set i x).getD i d = x := by
  simp [List.getD_eq_getElem?_getD, List.getElem?_set_self h]

theorem getD_set_ne {α : Type} (l : List α) {i j : Nat} (x d : α) (h : i ≠ j) :
    (l.set i x).getD j d = l.getD j d := by
  simp [List.getD_eq_getElem?_getD, List.getElem?_set_ne h]

theorem headD_drop {α : Type} (l : List α) (n : Nat) (d : α) :
    (l.drop n).headD d = l.getD n d := by
  rw [List.headD_eq_head?_getD, List.head?_drop, List.getD_eq_getElem?_getD]

theorem getD_replicate_zero (k j : Nat) : (List.replicate k (0 : Nat)).getD j 0 = 0 := by
  rw [List.getD_eq_getElem?_getD, List.getElem?_replicate]
  split <;> rfl

theorem take_succ_getD {α : Type} (l : List α) (n : Nat) (d : α) (h : n < l.length) :
    l.take (n + 1) = l.take n ++ [l.getD n d] := by
  rw [List.take_succ]
  congr 1
  rw [List.getD_eq_getElem?_getD, List.getElem?_eq_getElem h]
  rfl

theorem getD_drop {α : Type} (l : List α) (i j : Nat) (d : α) :
    (l.drop i).getD j d = l.getD (i + j) d := by
  simp [List.getD_eq_getElem?_getD, List.getElem?_drop]

theorem getD_take {α : Type} (l : List α) {n m : Nat} (d : α) (h : m < n) :
    (l.take n).getD m d = l.getD m d := by
  simp [List.getD_eq_getElem?_getD, List.getElem?_take, h]

theorem refHash_replicate_zero (n : Nat) : refHash (List.replicate n 0) = 0 := by
  have h : ∀ m, (List.replicate m (0 : Nat)).foldl
      (fun h x => (rollingHashBase * h + x) % hashMod) 0 = 0 := by
    intro m
    induction m with
    | zero => rfl
    | succ m ih =>
      show (List.replicate m (0 : Nat)).foldl _ ((rollingHashBase * 0 + 0) % hashMod) = 0
      simpa using ih
  exact h n

/-! ### Rolling hash: the incremental scheme matches the reference hash -/

/-- Sliding the window one step: the incremental update
`(base * hash + incoming + (mod - base^k mod mod) * evicted) % mod`
turns the reference hash of a window into the reference hash of the next
window. -/
theorem refHash_window_step (ws : List Nat) (x : Nat) (hne : ws ≠ []) :
    (rollingHashBase * refHash ws + x +
        (hashMod - rollingHashBase ^ ws.length % hashMod) * ws.headD 0) % hashMod =
      refHash (ws.tail ++ [x]) := by
  obtain ⟨hd, tl, rfl⟩ := List.exists_cons_of_ne_nil hne
  apply natCast_hashMod_inj (Nat.mod_lt _ hashMod_pos) (refHash_lt _)
  rw [ZMod.natCast_mod]
  push_cast [Nat.cast_sub (Nat.mod_lt (rollingHashBase ^ (hd :: tl).length) hashMod_pos).le]
  rw [ZMod.natCast_mod, ZMod.natCast_self, refHash_cast, refHash_cast]
  have hcons : hornerZ 0 (hd :: tl) = (hd : ZMod hashMod) *
      (rollingHashBase : ZMod hashMod) ^ tl.length + hornerZ 0 tl := by
    show hornerZ ((rollingHashBase : ZMod hashMod) * 0 + (hd : ZMod hashMod)) tl = _
    rw [hornerZ_shift tl]
    ring
  have happ : hornerZ 0 (tl ++ [x]) =
      (rollingHashBase : ZMod hashMod) * hornerZ 0 tl + (x : ZMod hashMod) := by
    rw [hornerZ_append]
    rfl
  simp only [List.tail_cons, List.headD_cons, List.length_cons]
  rw [hcons, happ]
  rw [Nat.cast_pow]
  ring

/-- Complete characterization of the `RollingHash` state after feeding a list
of token hashes: the write index cycles, the circular buffer holds the last
`k` inputs (zero-padded), and the running hash is the reference hash of the
current window of the zero-padded input. -/
theorem rollFeed_init_spec (k : Nat) (hk : 1 ≤ k) (l : List Nat) :
    (rollFeed (RollingHash.init k) l).k = k ∧
    (rollFeed (RollingHash.init k) l).maxBase = hashMod - rollingHashBase ^ k % hashMod ∧
    (rollFeed (RollingHash.init k) l).memory.length = k ∧
    (rollFeed (RollingHash.init k) l).i = l.length % k ∧
    (∀ j, j < k → (rollFeed (RollingHash.init k) l).memory.getD ((l.length + j) % k) 0 =
      (List.replicate k 0 ++ l).getD (l.length + j) 0) ∧
    (rollFeed (RollingHash.init k) l).hash =
      refHash ((List.replicate k 0 ++ l).drop l.length) := by
  induction l using List.reverseRecOn with
  | nil =>
    refine ⟨rfl, ?_, by simp [rollFeed, RollingHash.init], by simp [rollFeed, RollingHash.init], ?_, ?_⟩
    · show hashMod - modPow rollingHashBase k hashMod = _
      rw [modPow_spec _ _ _ hk]
    · intro j hj
      show (List.replicate k (0 : Nat)).getD ((0 + j) % k) 0 =
        (List.replicate k (0 : Nat) ++ ([] : List Nat)).getD (0 + j) 0
      rw [List.append_nil, getD_replicate_zero, getD_replicate_zero]
    · show (0 : Nat) = refHash ((List.replicate k (0 : Nat) ++ ([] : List Nat)).drop 0)
      rw [List.append_nil, List.drop_zero, refHash_replicate_zero]
  | append_singleton l x ih =>
    obtain ⟨ihk, ihmb, ihlen, ihi, ihmem, ihhash⟩ := ih
    have hstep : rollFeed (RollingHash.init k) (l ++ [x]) =
        ((rollFeed (RollingHash.init k) l).nextHash x).1 := by
      simp [rollFeed, List.foldl_append]
    set st := rollFeed (RollingHash.init k) l with hst
    set n := l.length with hn
    have hilt : st.i < st.memory.length := by
      rw [ihlen, ihi]; exact Nat.mod_lt _ (by omega)
    have hpadlen : (List.replicate k (0 : Nat) ++ l).length = k + n := by
      simp [hn]
    constructor
    · rw [hstep]; exact ihk
    constructor
    · rw [hstep]; exact ihmb
    constructor
    · rw [hstep]
      show (st.memory.set st.i x).length = k
      rw [List.length_set]; exact ihlen
    constructor
    · rw [hstep]
      show (st.i + 1) % st.k = (l ++ [x]).length % k
      rw [ihi, ihk, List.length_append, List.length_singleton, Nat.mod_add_mod]
    constructor
    · intro j hj
      rw [hstep]
      show (st.memory.set st.i x).getD (((l ++ [x]).length + j) % k) 0 =
        (List.replicate k (0 : Nat) ++ (l ++ [x])).getD ((l ++ [x]).length + j) 0
      have hlen1 : (l ++ [x]).length = n + 1 := by simp [hn]
      rw [hlen1]
      have hassoc : List.replicate k (0 : Nat) ++ (l ++ [x]) =
          (List.replicate k 0 ++ l) ++ [x] := by simp
      rw [hassoc]
      by_cases hj1 : j = k - 1
      · subst hj1
        have hidx : (n + 1 + (k - 1)) % k = n % k := by
          have : n + 1 + (k - 1) = n + k := by omega
          rw [this, Nat.add_mod_right]
        rw [hidx]
        have hmem : (st.memory.set st.i x).getD (n % k) 0 = x := by
          rw [← ihi]; exact getD_set_self _ _ _ _ hilt
        rw [hmem]
        have hidx2 : n + 1 + (k - 1) = (List.replicate k (0 : Nat) ++ l).length + 0 := by
          rw [hpadlen]; omega
        rw [hidx2, List.getD_append_right _ _ _ _ (by omega)]
        simp
      · have hjlt : j + 1 < k := by omega
        have hne : st.i ≠ (n + 1 + j) % k := by
          rw [ihi]
          intro hcontra
          have h1 : (n + 0) ≡ (n + (1 + j)) [MOD k] := by
            show (n + 0) % k = (n + (1 + j)) % k
            rw [Nat.add_zero, hcontra]
            congr 1
            omega
          have h2 : (0 : Nat) ≡ (1 + j) [MOD k] := Nat.ModEq.add_left_cancel' n h1
          have h3 : (1 + j) % k = 0 % k := h2.symm
          rw [Nat.mod_eq_of_lt (by omega : 1 + j < k), Nat.zero_mod] at h3
          omega
        rw [getD_set_ne _ _ _ hne]
        have hidx : n + 1 + j = n + (j + 1) := by omega
        rw [hidx, ihmem (j + 1) hjlt]
        exact (List.getD_append _ _ _ _ (by rw [hpadlen]; omega)).symm
    · rw [hstep]
      show (rollingHashBase * st.hash + x + st.maxBase * st.memory.getD st.i 0) % hashMod =
        refHash ((List.replicate k (0 : Nat) ++ (l ++ [x])).drop (l ++ [x]).length)
      have hlen1 : (l ++ [x]).length = n + 1 := by simp [hn]
      rw [hlen1]
      have hassoc : List.replicate k (0 : Nat) ++ (l ++ [x]) =
          (List.replicate k 0 ++ l) ++ [x] := by simp
      rw [hassoc]
      have hws_len : ((List.replicate k (0 : Nat) ++ l).drop n).length = k := by
        rw [List.length_drop, hpadlen]; omega
      have hws_ne : (List.replicate k (0 : Nat) ++ l).drop n ≠ [] :=
        List.ne_nil_of_length_pos (by rw [hws_len]; omega)
      have hdrop : ((List.replicate k (0 : Nat) ++ l) ++ [x]).drop (n + 1) =
          ((List.replicate k (0 : Nat) ++ l).drop n).tail ++ [x] := by
        rw [List.tail_drop, List.drop_append_of_le_length (by rw [hpadlen]; omega)]
      rw [hdrop, ← refHash_window_step _ x hws_ne, hws_len]
      have hmem0 := ihmem 0 (by omega)
      rw [Nat.add_zero] at hmem0
      rw [ihhash, ihmb, ihi, hmem0, headD_drop]

theorem hornerZ_eq_sum (ws : List Nat) :
    hornerZ 0 ws = ∑ j in Finset.range ws.length,
      (ws.getD j 0 : ZMod hashMod) * (rollingHashBase : ZMod hashMod) ^ (ws.length - 1 - j) := by
  induction ws with
  | nil => simp [hornerZ]
  | cons x t ih =>
    have hcons : hornerZ 0 (x :: t) = (x : ZMod hashMod) *
        (rollingHashBase : ZMod hashMod) ^ t.length + hornerZ 0 t := by
      show hornerZ ((rollingHashBase : ZMod hashMod) * 0 + (x : ZMod hashMod)) t = _
      rw [hornerZ_shift t]
      ring
    rw [hcons, ih, List.length_cons]
    rw [Finset.sum_range_succ']
    have hsum : ∑ j in Finset.range t.length,
        (((x :: t).getD (j + 1) 0 : Nat) : ZMod hashMod) *
          (rollingHashBase : ZMod hashMod) ^ (t.length + 1 - 1 - (j + 1)) =
        ∑ j in Finset.range t.length, ((t.getD j 0 : Nat) : ZMod hashMod) *
          (rollingHashBase : ZMod hashMod) ^ (t.length - 1 - j) := by
      apply Finset.sum_congr rfl
      intro j hj
      rw [List.getD_cons_succ]
      have he : t.length + 1 - 1 - (j + 1) = t.length - 1 - j := by omega
      rw [he]
    rw [hsum]
    simp only [List.getD_cons_zero, Nat.add_sub_cancel, Nat.sub_zero]
    ring

theorem refHash_eq_sum (ws : List Nat) :
    refHash ws = (∑ j in Finset.range ws.length,
      ws.getD j 0 * rollingHashBase ^ (ws.length - 1 - j)) % hashMod := by
  apply natCast_hashMod_inj (refHash_lt ws) (Nat.mod_lt _ hashMod_pos)
  rw [ZMod.natCast_mod, refHash_cast, hornerZ_eq_sum]
  push_cast
  rfl

theorem drop_replicate_append (k n : Nat) (hkn : k ≤ n) (l : List Nat) (hl : l.length = n) :
    (List.replicate k (0 : Nat) ++ l).drop n = l.drop (n - k) := by
  subst hl
  have hsplit : l.length = (List.replicate k (0 : Nat)).length + (l.length - k) := by
    rw [List.length_replicate]; omega
  conv_lhs => rw [hsplit]
  rw [List.drop_append]

theorem rollFeed_hash_take (k : Nat) (hk : 1 ≤ k) (hs : List Nat) (n : Nat)
    (hkn : k ≤ n) (hn : n ≤ hs.length) :
    (rollFeed (RollingHash.init k) (hs.take n)).hash = kgramHash k hs (n - k) := by
  have hspec := (rollFeed_init_spec k hk (hs.take n)).2.2.2.2.2
  have hlen : (hs.take n).length = n := by
    rw [List.length_take]; omega
  rw [hspec, hlen, drop_replicate_append k n hkn (hs.take n) hlen, List.drop_take]
  rw [show n - (n - k) = k by omega]
  rfl

/-- Claim C2 (rolling hash equivalence): for `k ≥ 1` and a token-hash
sequence of length at least `k`, the value `RollingHash.nextHash` returns at
position `i ≥ k - 1` equals the non-incremental Horner-style reference hash
`sum of tokenHash[i-k+1+j] * base^(k-1-j) mod mod` of the `k` most recent
token hashes; i.e. the incremental update
`hash = (base*hash + incoming + (mod - base^k mod mod) * evicted) mod mod`
is equivalent to rehashing the window from scratch. -/
theorem rollingHash_matches_reference (k : Nat) (hs : List Nat) (i : Nat) (hk : 1 ≤ k)
    (hik : k - 1 ≤ i) (hilen : i < hs.length) :
    ((rollFeed (RollingHash.init k) (hs.take i)).nextHash (hs.getD i 0)).2 =
      (∑ j in Finset.range k,
        hs.getD (i + 1 - k + j) 0 * rollingHashBase ^ (k - 1 - j)) % hashMod := by
  have h2 : ((rollFeed (RollingHash.init k) (hs.take i)).nextHash (hs.getD i 0)).2 =
      ((rollFeed (RollingHash.init k) (hs.take i)).nextHash (hs.getD i 0)).1.hash := rfl
  have h3 : ((rollFeed (RollingHash.init k) (hs.take i)).nextHash (hs.getD i 0)).1 =
      rollFeed (RollingHash.init k) (hs.take (i + 1)) := by
    rw [take_succ_getD hs i 0 hilen]
    simp [rollFeed, List.foldl_append]
  rw [h2, h3, rollFeed_hash_take k hk hs (i + 1) (by omega) (by omega)]
  rw [kgramHash, refHash_eq_sum]
  have hwslen : ((hs.drop (i + 1 - k)).take k).length = k := by
    rw [List.length_take, List.length_drop]
    omega
  rw [hwslen]
  congr 1
  apply Finset.sum_congr rfl
  intro j hj
  rw [Finset.mem_range] at hj
  rw [getD_take _ 0 hj, getD_drop]

/-- Witness for C2 at `k = 2`, `i = 1`, the hash sequence `[7, 11]`. -/
theorem rollingHash_matches_reference_witness :
    (1 ≤ 2 ∧ 2 - 1 ≤ 1 ∧ 1 < [7, 11].length) ∧
    ((rollFeed (RollingHash.init 2) ([7, 11].take 1)).nextHash ([7, 11].getD 1 0)).2 =
      (∑ j in Finset.range 2,
        [7, 11].getD (1 + 1 - 2 + j) 0 * rollingHashBase ^ (2 - 1 - j)) % hashMod :=
  ⟨⟨by decide, by decide, by decide⟩,
    rollingHash_matches_reference 2 [7, 11] 1 (by decide) (by decide) (by decide)⟩

/-! ### TokenHash (claim C5) -/

/-- Trial-division checker by binary splitting: `noDivisorInRange n fuel lo len`
is `true` only if no `d` with `2 ≤ d`, `lo ≤ d < lo + len` divides `n`.
The splitting keeps both the recursion depth and the kernel evaluation stack
logarithmic in `len`, so `decide` proofs stay kernel-reducible. -/
def noDivisorInRange (n : Nat) : Nat → Nat → Nat → Bool
  | 0, _, len => decide (len = 0)
  | fuel + 1, lo, len =>
    if len = 0 then true
    else if len = 1 then decide (lo < 2) || decide (n % lo ≠ 0)
    else
      noDivisorInRange n fuel lo (len / 2) &&
        noDivisorInRange n fuel (lo + len / 2) (len - len / 2)

theorem noDivisorInRange_spec (n : Nat) :
    ∀ fuel lo len, noDivisorInRange n fuel lo len = true →
      ∀ m, 2 ≤ m → lo ≤ m → m < lo + len → ¬ m ∣ n := by
  intro fuel
  induction fuel with
  | zero =>
    intro lo len h m _ hlo hlt
    rw [noDivisorInRange, decide_eq_true_iff] at h
    omega
  | succ fuel ih =>
    intro lo len h m hm hlo hlt
    rw [noDivisorInRange] at h
    by_cases h0 : len = 0
    · omega
    · rw [if_neg h0] at h
      by_cases h1 : len = 1
      · rw [if_pos h1, Bool.or_eq_true, decide_eq_true_iff, decide_eq_true_iff] at h
        have hml : m = lo := by omega
        subst hml
        rcases h with h | h
        · omega
        · intro hdvd
          obtain ⟨c, rfl⟩ := hdvd
          exact h (Nat.mul_mod_right _ _)
      · rw [if_neg h1, Bool.and_eq_true] at h
        rcases Nat.lt_or_ge m (lo + len / 2) with hsplit | hsplit
        · exact ih lo (len / 2) h.1 m hm hlo hsplit
        · exact ih (lo + len / 2) (len - len / 2) h.2 m hm hsplit (by omega)

set_option maxRecDepth 4000 in
theorem hashMod_prime : Nat.Prime hashMod := by
  have hmod : hashMod = 33554393 := rfl
  rw [hmod, Nat.prime_def_le_sqrt]
  refine ⟨by omega, fun m hm hle => ?_⟩
  have hmm : m * m ≤ 33554393 := Nat.le_sqrt.mp hle
  have hb : m ≤ 5792 := by
    by_contra hc
    push_neg at hc
    have : 5793 * 5793 ≤ m * m := Nat.mul_le_mul (by omega) (by omega)
    omega
  exact noDivisorInRange_spec 33554393 16 2 5791 (by decide) m hm hm (by omega)

theorem hashToken_foldl_lt (l : List Char) : ∀ a, a < hashMod →
    l.foldl (fun hash c => ((hash + c.toNat) * tokenHashBase) % hashMod) a < hashMod := by
  induction l with
  | nil => intro a ha; exact ha
  | cons c cs ih => intro a ha; exact ih _ (Nat.mod_lt _ hashMod_pos)

/-- Counterexample to claim C5 as stated: the fixed modulus of
`TokenHash.hashToken` is not at least `2^25` (it is `33554393 = 2^25 - 39`,
a 25-bit number, despite the source comment calling it a "26-bit prime"). -/
theorem tokenHash_mod_not_ge_two_pow_25 : ¬ (2 ^ 25 ≤ hashMod) := by decide

/-- Claim C5, amended: `TokenHash.hashToken` returns a value in
`[0, hashMod)` computed by iterating `hash = (hash + charCode) * base % mod`
over the token's characters, where the fixed modulus is prime and at least
`2^24`, and the fixed base is coprime to the modulus.  (The original claim
said "at least `2^25`"; the modulus is in fact 39 short of `2^25`.) -/
theorem hashToken_contract :
    (∀ token : String, hashToken token < hashMod ∧
      hashToken token =
        token.data.foldl (fun hash c => ((hash + c.toNat) * tokenHashBase) % hashMod) 0) ∧
    Nat.Prime hashMod ∧ 2 ^ 24 ≤ hashMod ∧ Nat.Coprime tokenHashBase hashMod := by
  refine ⟨fun token => ⟨hashToken_foldl_lt token.data 0 (by decide), rfl⟩, ?_, by decide, ?_⟩
  · exact hashMod_prime
  · have hp : Nat.Prime hashMod := hashMod_prime
    exact ((hp.coprime_iff_not_dvd).mpr
      (fun hdvd => absurd (Nat.le_of_dvd (by decide) hdvd) (by decide))).symm

/-! ### Region validity and merge (claims C7, C8) -/

theorem region_valid_iff (sr sc er ec : Int) :
    Region.valid sr sc er ec = true ↔ (sr < er ∨ (sr = er ∧ sc ≤ ec)) := by
  simp [Region.valid]

/-- Claim C7: constructing a `Region` violating the invariant
`startRow < endRow OR (startRow == endRow AND startCol <= endCol)` fails with
an error (no partially constructed object), while any coordinates satisfying
the invariant construct successfully. -/
theorem region_constructor_validity (sr sc er ec : Int) :
    ((sr < er ∨ (sr = er ∧ sc ≤ ec)) →
      Region.make sr sc er ec = Except.ok ⟨sr, sc, er, ec⟩) ∧
    (¬ (sr < er ∨ (sr = er ∧ sc ≤ ec)) →
      Region.make sr sc er ec = Except.error "Invalid region") := by
  constructor
  · intro h
    rw [Region.make, if_pos ((region_valid_iff sr sc er ec).mpr h)]
  · intro h
    rw [Region.make, if_neg]
    intro hcontra
    exact h ((region_valid_iff sr sc er ec).mp hcontra)

/-- Witness for C7: `Region(5,0,3,0)` fails, `Region(2,0,2,5)` succeeds. -/
theorem region_constructor_validity_witness :
    Region.make 5 0 3 0 = Except.error "Invalid region" ∧
    Region.make 2 0 2 5 = Except.ok ⟨2, 0, 2, 5⟩ :=
  ⟨(region_constructor_validity 5 0 3 0).2 (by decide),
   (region_constructor_validity 2 0 2 5).1 (by decide)⟩

theorem posLe_trans {a b c d e f : Int} (h1 : posLe a b c d) (h2 : posLe c d e f) :
    posLe a b e f := by
  unfold posLe at h1 h2 ⊢
  omega

theorem mergeTotal_covers_left (r1 r2 : Region) :
    posLe (Region.mergeTotal r1 r2).startRow (Region.mergeTotal r1 r2).startCol
      r1.startRow r1.startCol ∧
    posLe r1.endRow r1.endCol (Region.mergeTotal r1 r2).endRow (Region.mergeTotal r1 r2).endCol := by
  unfold Region.mergeTotal posLe
  dsimp only
  constructor <;> (split_ifs <;> omega)

theorem mergeTotal_covers_right (r1 r2 : Region) :
    posLe (Region.mergeTotal r1 r2).startRow (Region.mergeTotal r1 r2).startCol
      r2.startRow r2.startCol ∧
    posLe r2.endRow r2.endCol (Region.mergeTotal r1 r2).endRow (Region.mergeTotal r1 r2).endCol := by
  unfold Region.mergeTotal posLe
  dsimp only
  constructor <;> (split_ifs <;> omega)

theorem mergeTotal_minimal (r1 r2 R : Region) (hc1 : R.covers r1) (hc2 : R.covers r2) :
    R.covers (Region.mergeTotal r1 r2) := by
  obtain ⟨hs1, he1⟩ := hc1
  obtain ⟨hs2, he2⟩ := hc2
  unfold posLe at hs1 hs2 he1 he2
  constructor
  · unfold Region.mergeTotal posLe
    dsimp only
    split_ifs <;> omega
  · unfold Region.mergeTotal posLe
    dsimp only
    split_ifs <;> omega

/-- Claim C8: for valid regions, `Region.merge` succeeds and produces the
smallest region covering both inputs. -/
theorem region_merge_smallest (r1 r2 : Region)
    (h1 : Region.valid r1.startRow r1.startCol r1.endRow r1.endCol = true)
    (h2 : Region.valid r2.startRow r2.startCol r2.endRow r2.endCol = true) :
    Region.merge r1 r2 = Except.ok (Region.mergeTotal r1 r2) ∧
    Region.valid (Region.mergeTotal r1 r2).startRow (Region.mergeTotal r1 r2).startCol
      (Region.mergeTotal r1 r2).endRow (Region.mergeTotal r1 r2).endCol = true ∧
    (Region.mergeTotal r1 r2).covers r1 ∧ (Region.mergeTotal r1 r2).covers r2 ∧
    ∀ R : Region, R.covers r1 → R.covers r2 → R.covers (Region.mergeTotal r1 r2) := by
  rw [region_valid_iff] at h1 h2
  have hvalid : posLe (Region.mergeTotal r1 r2).startRow (Region.mergeTotal r1 r2).startCol
      (Region.mergeTotal r1 r2).endRow (Region.mergeTotal r1 r2).endCol :=
    posLe_trans (mergeTotal_covers_left r1 r2).1
      (posLe_trans h1 (mergeTotal_covers_left r1 r2).2)
  refine ⟨?_, (region_valid_iff _ _ _ _).mpr hvalid, ?_, ?_, mergeTotal_minimal r1 r2⟩
  · rw [Region.merge, Region.make, if_pos ((region_valid_iff _ _ _ _).mpr hvalid)]
  · exact ⟨(mergeTotal_covers_left r1 r2).1, (mergeTotal_covers_left r1 r2).2⟩
  · exact ⟨(mergeTotal_covers_right r1 r2).1, (mergeTotal_covers_right r1 r2).2⟩

/-- Witness for C8: merging `Region(0,0,1,0)` with `Region(1,0,2,0)` yields
`Region(0,0,2,0)`. -/
theorem region_merge_smallest_witness :
    Region.merge ⟨0, 0, 1, 0⟩ ⟨1, 0, 2, 0⟩ = Except.ok ⟨0, 0, 2, 0⟩ ∧
    (Region.mergeTotal ⟨0, 0, 1, 0⟩ ⟨1, 0, 2, 0⟩).covers ⟨0, 0, 1, 0⟩ := by
  have h := region_merge_smallest ⟨0, 0, 1, 0⟩ ⟨1, 0, 2, 0⟩ (by decide) (by decide)
  refine ⟨?_, h.2.2.1⟩
  have h1 := h.1
  have hmt : Region.mergeTotal ⟨0, 0, 1, 0⟩ ⟨1, 0, 2, 0⟩ = ⟨0, 0, 2, 0⟩ := by decide
  rw [hmt] at h1
  exact h1

/-! ### Winnowing: warm-up phase and short inputs (claim C6) -/

theorem getD_replicate_lt {α : Type} (w s : Nat) (c d : α) (h : s < w) :
    (List.replicate w c).getD s d = c := by
  simp [List.getD_eq_getElem?_getD, List.getElem?_replicate, h]

theorem fingerprints_eq_feedN (k w : Nat) (kd : Bool) (tokens : List String) :
    fingerprints k w kd tokens = (feedN k w kd tokens tokens.length).fps := by
  rw [fingerprints, feedN, ← List.length_map tokens hashToken, List.take_length]

theorem feedN_succ (k w : Nat) (kd : Bool) (tokens : List String) (n : Nat)
    (hn : n < tokens.length) :
    feedN k w kd tokens (n + 1) =
      winnowStep k w kd tokens (feedN k w kd tokens n) ((tokens.map hashToken).getD n 0) := by
  rw [feedN, feedN,
    take_succ_getD (tokens.map hashToken) n 0 (by rw [List.length_map]; exact hn),
    List.foldl_append]
  rfl

theorem feedN_warmup (k w : Nat) (kd : Bool) (tokens : List String) (n : Nat)
    (hk : 1 ≤ k) (hn1 : n + 1 ≤ k) (hn2 : n ≤ tokens.length) :
    feedN k w kd tokens n =
      { rh := rollFeed (RollingHash.init k) ((tokens.map hashToken).take n)
        filePos := (n : Int) - (k : Int)
        bufferPos := 0
        minPos := 0
        buffer := List.replicate w maxSafeInteger
        fps := [] } := by
  induction n with
  | zero =>
    show initWinnowState k w = _
    rw [initWinnowState]
    simp [rollFeed]
  | succ n ih =>
    rw [feedN_succ k w kd tokens n (by omega)]
    rw [ih (by omega) (by omega)]
    rw [winnowStep]
    rw [if_pos (by push_cast; omega)]
    have hrh : ((rollFeed (RollingHash.init k) ((tokens.map hashToken).take n)).nextHash
        ((tokens.map hashToken).getD n 0)).1 =
        rollFeed (RollingHash.init k) ((tokens.map hashToken).take (n + 1)) := by
      rw [take_succ_getD (tokens.map hashToken) n 0 (by rw [List.length_map]; omega)]
      simp [rollFeed, List.foldl_append]
    simp only [hrh]
    congr 1
    push_cast
    ring

/-- Claim C6: `fingerprints` on the empty token sequence is empty, and on any
sequence with fewer than `k` tokens is empty (the whole input is warm-up). -/
theorem fingerprints_short_input (k w : Nat) (kd : Bool) (hk : 1 ≤ k) (hw : 1 ≤ w) :
    fingerprints k w kd [] = [] ∧
    (∀ tokens : List String, tokens.length < k → fingerprints k w kd tokens = []) := by
  have hshort : ∀ tokens : List String, tokens.length < k → fingerprints k w kd tokens = [] := by
    intro tokens hlen
    rw [fingerprints_eq_feedN,
      feedN_warmup k w kd tokens tokens.length hk (by omega) (le_refl _)]
  exact ⟨hshort [] (by simpa using hk), hshort⟩

/-- Witness for C6 at `k = 3`, `w = 2`, a two-token input. -/
theorem fingerprints_short_input_witness :
    fingerprints 3 2 false [] = [] ∧ fingerprints 3 2 true ["a", "b"] = [] :=
  ⟨(fingerprints_short_input 3 2 false (by decide) (by decide)).1,
   (fingerprints_short_input 3 2 true (by decide) (by decide)).2 ["a", "b"] (by decide)⟩

/-! ### The JavaScript remainder in the emitted start offsets -/

/-- The offset computation `(minPos - bufferPos - w) % w` (JavaScript
remainder) recovers exactly how many k-grams back the selected slot is:
if `minPos` is the slot of k-gram `t2 - j` and `bufferPos` the slot of
k-gram `t2` (slot of `p` being `(1 + p) % w`), the offset is `-j`. -/
theorem jsRem_slot (w t2 j : Nat) (hw : 1 ≤ w) (hj : j < w) (hjt : j ≤ t2) :
    jsRem ((((t2 - j) % w : Nat) : Int) - (((t2 % w : Nat) : Nat) : Int) - (w : Int)) (w : Int) =
      -(j : Int) := by
  have hA : (t2 - j) % w < w := Nat.mod_lt _ (by omega)
  have hB : t2 % w < w := Nat.mod_lt _ (by omega)
  set A := (t2 - j) % w with hAdef
  set B := t2 % w with hBdef
  have hneg : (A : Int) - (B : Int) - (w : Int) < 0 := by omega
  rw [jsRem, if_pos hneg]
  have hle : A ≤ B + w := by omega
  have hcast : -((A : Int) - (B : Int) - (w : Int)) = ((B + w - A : Nat) : Int) := by
    push_cast [hle]
    ring
  rw [hcast, ← Int.natCast_mod]
  have hNA : (B + w - A) + A = B + w := by omega
  have hmod : (B + w - A) % w = j := by
    have h2 : (B + w - A) + A ≡ j + A [MOD w] := by
      rw [hNA]
      calc B + w ≡ t2 + w [MOD w] := (Nat.mod_modEq t2 w).add_right w
      _ ≡ t2 [MOD w] := Nat.add_mod_right t2 w
      _ = j + (t2 - j) := by omega
      _ ≡ j + A [MOD w] := ((Nat.mod_modEq (t2 - j) w).symm).add_left j
    have h3 : (B + w - A) ≡ j [MOD w] := Nat.ModEq.add_right_cancel (Nat.ModEq.refl A) h2
    have h4 : (B + w - A) % w = j % w := h3
    rw [Nat.mod_eq_of_lt hj] at h4
    exact h4
  rw [hmod]

/-- Special case used by the "new value is the new minimum" branch:
the offset of the just-written slot is `0`. -/
theorem jsRem_bufferPos (w : Nat) (hw : 1 ≤ w) (b : Nat) :
    jsRem ((b : Int) - (b : Int) - (w : Int)) (w : Int) = 0 := by
  have h : (b : Int) - (b : Int) - (w : Int) = -(w : Int) := by ring
  rw [h, jsRem, if_pos (by omega)]
  simp [Int.emod_self]

/-! ### The re-scan loop finds a position of the buffer minimum -/

theorem rescan_foldl_spec (buffer : List Nat) (l : List Nat) : ∀ a : Nat,
    ((l.foldl (fun mp i => if buffer.getD i 0 ≤ buffer.getD mp 0 then i else mp) a = a ∨
      l.foldl (fun mp i => if buffer.getD i 0 ≤ buffer.getD mp 0 then i else mp) a ∈ l) ∧
     buffer.getD (l.foldl (fun mp i => if buffer.getD i 0 ≤ buffer.getD mp 0 then i else mp) a) 0 ≤
       buffer.getD a 0 ∧
     (∀ i, i ∈ l →
       buffer.getD (l.foldl (fun mp i => if buffer.getD i 0 ≤ buffer.getD mp 0 then i else mp) a) 0 ≤
         buffer.getD i 0)) := by
  induction l with
  | nil =>
    intro a
    exact ⟨Or.inl rfl, le_refl _, fun i hi => absurd hi (List.not_mem_nil i)⟩
  | cons x xs ih =>
    intro a
    have hstep : (x :: xs).foldl
        (fun mp i => if buffer.getD i 0 ≤ buffer.getD mp 0 then i else mp) a =
        xs.foldl (fun mp i => if buffer.getD i 0 ≤ buffer.getD mp 0 then i else mp)
          (if buffer.getD x 0 ≤ buffer.getD a 0 then x else a) := rfl
    obtain ⟨hmem, hlea, hall⟩ := ih (if buffer.getD x 0 ≤ buffer.getD a 0 then x else a)
    rw [hstep]
    refine ⟨?_, ?_, ?_⟩
    · rcases hmem with h | h
      · rw [h]
        split_ifs with hc
        · exact Or.inr (List.mem_cons_self x xs)
        · exact Or.inl rfl
      · exact Or.inr (List.mem_cons_of_mem x h)
    · apply le_trans hlea
      split_ifs with hc
      · exact hc
      · exact le_refl _
    · intro i hi
      rcases List.mem_cons.mp hi with h | h
      · subst h
        apply le_trans hlea
        split_ifs with hc
        · exact le_refl _
        · omega
      · exact hall i h

theorem rescanMin_spec (w : Nat) (hw : 1 ≤ w) (buffer : List Nat) (bufferPos : Nat)
    (hb : bufferPos < w) :
    rescanMin w buffer bufferPos < w ∧
    (∀ s, s < w → buffer.getD (rescanMin w buffer bufferPos) 0 ≤ buffer.getD s 0) := by
  obtain ⟨hmem, hlea, hall⟩ := rescan_foldl_spec buffer
    ((List.range (w - 1)).map fun j => (bufferPos + 1 + j) % w) bufferPos
  rw [rescanMin]
  constructor
  · rcases hmem with h | h
    · rw [h]; exact hb
    · obtain ⟨j, hj, hval⟩ := List.mem_map.mp h
      rw [← hval]
      exact Nat.mod_lt _ (by omega)
  · intro s hs
    by_cases hsb : s = bufferPos
    · subst hsb
      exact hlea
    · apply hall
      apply List.mem_map.mpr
      set d := (w + s - bufferPos) % w with hd_def
      have hd_lt : d < w := Nat.mod_lt _ (by omega)
      have hslot : (bufferPos + d) % w = s := by
        have h1 : bufferPos + d ≡ bufferPos + (w + s - bufferPos) [MOD w] :=
          (Nat.mod_modEq (w + s - bufferPos) w).add_left bufferPos
        have h2 : bufferPos + (w + s - bufferPos) = w + s := by omega
        have h3 : (bufferPos + d) % w = (w + s) % w := by
          have h4 : (bufferPos + d) % w = (bufferPos + (w + s - bufferPos)) % w := h1
          rw [h4, h2]
        rw [h3, Nat.add_mod_left, Nat.mod_eq_of_lt hs]
      have hd_ne : d ≠ 0 := by
        intro h0
        rw [h0, Nat.add_zero, Nat.mod_eq_of_lt hb] at hslot
        exact hsb hslot.symm
      refine ⟨d - 1, List.mem_range.mpr (by omega), ?_⟩
      have h5 : bufferPos + 1 + (d - 1) = bufferPos + d := by omega
      rw [h5, hslot]

/-! ### The k-gram hash stream seen by the winnowing loop -/

/-- The hash of the k-gram of `tokens` starting at token position `p`. -/
def tokenGram (k : Nat) (tokens : List String) (p : Nat) : Nat :=
  kgramHash k (tokens.map hashToken) p

theorem tokenGram_lt_maxSafe (k : Nat) (tokens : List String) (p : Nat) :
    tokenGram k tokens p < maxSafeInteger :=
  lt_of_lt_of_le (refHash_lt _) (by decide)

/-- Feeding token `n` (0-based) into the rolling hash after the first `n`
tokens returns the hash of the k-gram ending at token `n`. -/
theorem rollFeed_nextHash_gram (k : Nat) (hk : 1 ≤ k) (tokens : List String) (n : Nat)
    (hn : n < tokens.length) (hkn : k ≤ n + 1) :
    ((rollFeed (RollingHash.init k) ((tokens.map hashToken).take n)).nextHash
      ((tokens.map hashToken).getD n 0)).2 = tokenGram k tokens (n + 1 - k) := by
  have h2 : ((rollFeed (RollingHash.init k) ((tokens.map hashToken).take n)).nextHash
      ((tokens.map hashToken).getD n 0)).2 =
      ((rollFeed (RollingHash.init k) ((tokens.map hashToken).take n)).nextHash
      ((tokens.map hashToken).getD n 0)).1.hash := rfl
  have h3 : ((rollFeed (RollingHash.init k) ((tokens.map hashToken).take n)).nextHash
      ((tokens.map hashToken).getD n 0)).1 =
      rollFeed (RollingHash.init k) ((tokens.map hashToken).take (n + 1)) := by
    rw [take_succ_getD (tokens.map hashToken) n 0 (by rw [List.length_map]; omega)]
    simp [rollFeed, List.foldl_append]
  rw [h2, h3, rollFeed_hash_take k hk (tokens.map hashToken) (n + 1) hkn
    (by rw [List.length_map]; omega)]
  rfl

/-- The state after the first k-gram: the first window hash is written to
slot `1 % w`, becomes the minimum, and is emitted as the first fingerprint. -/
theorem feedN_k (k w : Nat) (hk : 1 ≤ k) (hw : 1 ≤ w) (kd : Bool) (tokens : List String)
    (hlen : k ≤ tokens.length) :
    feedN k w kd tokens k =
      { rh := rollFeed (RollingHash.init k) ((tokens.map hashToken).take k)
        filePos := 0
        bufferPos := 1 % w
        minPos := 1 % w
        buffer := (List.replicate w maxSafeInteger).set (1 % w) (tokenGram k tokens 0)
        fps := [mkFp k w kd tokens
          ((List.replicate w maxSafeInteger).set (1 % w) (tokenGram k tokens 0))
          (1 % w) (1 % w) 0] } := by
  obtain ⟨n, rfl⟩ : ∃ n, k = n + 1 := ⟨k - 1, by omega⟩
  rw [feedN_succ (n + 1) w kd tokens n (by omega),
    feedN_warmup (n + 1) w kd tokens n hk (by omega) (by omega)]
  rw [winnowStep]
  have hgram : ((rollFeed (RollingHash.init (n + 1)) ((tokens.map hashToken).take n)).nextHash
      ((tokens.map hashToken).getD n 0)).2 = tokenGram (n + 1) tokens 0 := by
    rw [rollFeed_nextHash_gram (n + 1) hk tokens n (by omega) (by omega)]
    congr 1
    omega
  have hrh : ((rollFeed (RollingHash.init (n + 1)) ((tokens.map hashToken).take n)).nextHash
      ((tokens.map hashToken).getD n 0)).1 =
      rollFeed (RollingHash.init (n + 1)) ((tokens.map hashToken).take (n + 1)) := by
    rw [take_succ_getD (tokens.map hashToken) n 0 (by rw [List.length_map]; omega)]
    simp [rollFeed, List.foldl_append]
  dsimp only
  rw [if_neg (by push_cast; omega)]
  simp only [hgram, hrh]
  have hfp : ((n : Int) - ((n + 1 : Nat) : Int)) + 1 = 0 := by push_cast; ring
  rw [winnowEmit]
  dsimp only
  simp only [Nat.zero_add, hfp, List.nil_append]
  by_cases hw1 : w = 1
  · subst hw1
    rw [if_pos (by decide)]
    have hrescan : rescanMin 1 ((List.replicate 1 maxSafeInteger).set (1 % 1)
        (tokenGram (n + 1) tokens 0)) (1 % 1) = 1 % 1 := rfl
    rw [hrescan]
  · have hw2 : 1 % w = 1 := Nat.mod_eq_of_lt (by omega)
    rw [if_neg (by rw [hw2]; omega)]
    have hcond : ((List.replicate w maxSafeInteger).set (1 % w)
        (tokenGram (n + 1) tokens 0)).getD (1 % w) 0 ≤
        ((List.replicate w maxSafeInteger).set (1 % w) (tokenGram (n + 1) tokens 0)).getD 0 0 := by
      rw [getD_set_self _ _ _ _ (by rw [List.length_replicate]; omega)]
      rw [getD_set_ne _ _ _ (by rw [hw2]; omega)]
      rw [getD_replicate_lt w 0 _ _ (by omega)]
      exact (tokenGram_lt_maxSafe _ _ _).le
    rw [if_pos hcond]

/-! ### Modular slot bookkeeping for the circular window buffer -/

theorem mod_sub_cancel (w a b : Nat) (hb : b ≤ a) (hc : (a - b) % w = a % w) :
    b % w = 0 := by
  have h1 : (a - b) + b ≡ a + b [MOD w] :=
    (show Nat.ModEq w (a - b) a from hc).add_right b
  have h2 : a - b + b = a + 0 := by omega
  rw [h2] at h1
  have h3 : (0 : Nat) ≡ b [MOD w] := Nat.ModEq.add_left_cancel' a h1
  have h4 : 0 % w = b % w := h3
  rw [Nat.zero_mod] at h4
  exact h4.symm

theorem exists_slot (w t2 s : Nat) (hw : 1 ≤ w) (hs : s < w) (hwt : w ≤ t2) :
    ∃ j, j < w ∧ (t2 - j) % w = s := by
  refine ⟨(w + t2 % w - s) % w, Nat.mod_lt _ (by omega), ?_⟩
  set j := (w + t2 % w - s) % w with hj_def
  have hj_lt : j < w := Nat.mod_lt _ (by omega)
  have hj_le : j ≤ t2 := by omega
  have h1 : s + j ≡ s + (w + t2 % w - s) [MOD w] :=
    (Nat.mod_modEq (w + t2 % w - s) w).add_left s
  have h2 : s + (w + t2 % w - s) = w + t2 % w := by omega
  have h3 : (s + j) % w = t2 % w := by
    have h4 : (s + j) % w = (s + (w + t2 % w - s)) % w := h1
    rw [h4, h2, Nat.add_mod_left, Nat.mod_mod_of_dvd _ (dvd_refl w)]
  have h5 : s + j ≡ (t2 - j) + j [MOD w] := by
    show (s + j) % w = ((t2 - j) + j) % w
    rw [h3]
    congr 1
    omega
  have h6 : s ≡ t2 - j [MOD w] := Nat.ModEq.add_right_cancel (Nat.ModEq.refl j) h5
  have h7 : (t2 - j) % w = s % w := h6.symm
  rw [Nat.mod_eq_of_lt hs] at h7
  exact h7

theorem slot_wrap (w T : Nat) (hw : 1 ≤ w) (hwT : w ≤ T) :
    (T - (w - 1)) % w = (T + 1) % w := by
  calc (T - (w - 1)) % w = (T - (w - 1) + w) % w := (Nat.add_mod_right _ w).symm
  _ = (T + 1) % w := by congr 1; omega

theorem rollFeed_append_one (rh : RollingHash) (l : List Nat) (x : Nat) :
    rollFeed rh (l ++ [x]) = ((rollFeed rh l).nextHash x).1 := by
  simp [rollFeed, List.foldl_append]

theorem mkFp_eval (k w : Nat) (kd : Bool) (tokens : List String) (buffer : List Nat)
    (minPos bufferPos : Nat) (filePos : Int) (off : Int)
    (hoff : jsRem ((minPos : Int) - (bufferPos : Int) - (w : Int)) (w : Int) = off) :
    mkFp k w kd tokens buffer minPos bufferPos filePos =
      { data := if kd then some ((tokens.drop (filePos + off).toNat).take k) else none
        hash := buffer.getD minPos 0
        start := filePos + off
        stop := filePos + off + (k : Int) - 1 } := by
  simp only [mkFp, hoff]

/-- The loop invariant of `WinnowFilter.fingerprints` after `T ≥ 1` k-grams
have entered the window (that is, after the first `k + T - 1` tokens):
the rolling hash has consumed exactly those tokens; `bufferPos` points at
slot `T % w` (the slot of k-gram `p` being `(1 + p) % w`); the buffer holds
the hashes of the last `min T w` k-grams in their slots and the sentinel
elsewhere; `minPos` points at a slot holding the minimum hash of the current
window and a fingerprint carrying that hash has been emitted; and every
emitted fingerprint is a genuine k-gram of the input: `start = p`,
`stop = p + k - 1`, `hash` the k-gram's hash, and `data` its literal tokens. -/
def WInv (k w : Nat) (kd : Bool) (tokens : List String) (T : Nat) (st : WFState) : Prop :=
  st.rh = rollFeed (RollingHash.init k) ((tokens.map hashToken).take (k + T - 1)) ∧
  st.filePos = ((k + T - 1 : Nat) : Int) - (k : Int) ∧
  st.bufferPos = T % w ∧
  st.buffer.length = w ∧
  (∀ j, j < min T w → st.buffer.getD ((T - j) % w) 0 = tokenGram k tokens (T - 1 - j)) ∧
  (∀ s, s < w → (∀ j, j < min T w → s ≠ (T - j) % w) →
    st.buffer.getD s 0 = maxSafeInteger) ∧
  (∃ j, j < min T w ∧ st.minPos = (T - j) % w ∧
    (∀ j2, j2 < min T w → tokenGram k tokens (T - 1 - j) ≤ tokenGram k tokens (T - 1 - j2)) ∧
    (∃ fp, fp ∈ st.fps ∧ fp.hash = tokenGram k tokens (T - 1 - j))) ∧
  (∀ fp, fp ∈ st.fps → ∃ p, p < T ∧ fp.start = (p : Int) ∧
    fp.stop = (p : Int) + (k : Int) - 1 ∧ fp.hash = tokenGram k tokens p ∧
    fp.data = (if kd then some ((tokens.drop p).take k) else none))

theorem winv_step (k w : Nat) (hk : 1 ≤ k) (hw : 1 ≤ w) (kd : Bool) (tokens : List String)
    (T : Nat) (hT : 1 ≤ T) (hlen : k + T ≤ tokens.length) (st : WFState)
    (hinv : WInv k w kd tokens T st) :
    WInv k w kd tokens (T + 1)
      (winnowStep k w kd tokens st ((tokens.map hashToken).getD (k + T - 1) 0)) := by
  obtain ⟨hrh, hfile, hbuf, hblen, hactive, hsent, hminI, hfps⟩ := hinv
  obtain ⟨j0, hj0lt, hj0min, hj0arg, fp0, hfp0mem, hfp0hash⟩ := hminI
  have hj0w : j0 < w := by omega
  have hj0T : j0 < T := by omega
  have hg : ((st.rh).nextHash ((tokens.map hashToken).getD (k + T - 1) 0)).2 =
      tokenGram k tokens T := by
    rw [hrh, rollFeed_nextHash_gram k hk tokens (k + T - 1) (by omega) (by omega)]
    congr 1
    omega
  have hrh2 : ((st.rh).nextHash ((tokens.map hashToken).getD (k + T - 1) 0)).1 =
      rollFeed (RollingHash.init k) ((tokens.map hashToken).take (k + T)) := by
    have hsucc := take_succ_getD (tokens.map hashToken) (k + T - 1) 0
      (by rw [List.length_map]; omega)
    rw [show k + T - 1 + 1 = k + T from by omega] at hsucc
    rw [hrh, ← rollFeed_append_one, ← hsucc]
  rw [winnowStep]
  rw [if_neg (by rw [hfile]; push_cast; omega)]
  rw [winnowEmit]
  dsimp only
  have hbp : (st.bufferPos + 1) % w = (T + 1) % w := by rw [hbuf, Nat.mod_add_mod]
  simp only [hbp, hg, hrh2]
  have hTw : (T + 1) % w < w := Nat.mod_lt _ (by omega)
  have hset_len : (st.buffer.set ((T + 1) % w) (tokenGram k tokens T)).length = w := by
    rw [List.length_set, hblen]
  have hget_new : (st.buffer.set ((T + 1) % w) (tokenGram k tokens T)).getD ((T + 1) % w) 0 =
      tokenGram k tokens T :=
    getD_set_self _ _ _ _ (by rw [hblen]; exact hTw)
  have hget_old : ∀ s, s ≠ (T + 1) % w →
      (st.buffer.set ((T + 1) % w) (tokenGram k tokens T)).getD s 0 = st.buffer.getD s 0 :=
    fun s hs => getD_set_ne _ _ _ (fun hc => hs hc.symm)
  have hactive2 : ∀ j, j < min (T + 1) w →
      (st.buffer.set ((T + 1) % w) (tokenGram k tokens T)).getD ((T + 1 - j) % w) 0 =
        tokenGram k tokens (T - j) := by
    intro j hj
    by_cases hj0' : j = 0
    · subst hj0'
      simpa using hget_new
    · have hjw : j < w := by omega
      have hjT1 : j ≤ T := by omega
      have hslot_ne : (T + 1 - j) % w ≠ (T + 1) % w := by
        intro hc
        have h0 : j % w = 0 := mod_sub_cancel w (T + 1) j (by omega) hc
        rw [Nat.mod_eq_of_lt hjw] at h0
        omega
      rw [hget_old _ hslot_ne]
      rw [show T + 1 - j = T - (j - 1) from by omega]
      rw [hactive (j - 1) (by omega)]
      congr 1
      omega
  have hsent2 : ∀ s, s < w → (∀ j, j < min (T + 1) w → s ≠ (T + 1 - j) % w) →
      (st.buffer.set ((T + 1) % w) (tokenGram k tokens T)).getD s 0 = maxSafeInteger := by
    intro s hs hnotin
    have hs_new : s ≠ (T + 1) % w := by
      have h := hnotin 0 (by omega)
      simpa using h
    rw [hget_old s hs_new]
    apply hsent s hs
    intro j hj
    by_cases hjcase : j = w - 1 ∧ w ≤ T
    · obtain ⟨hjw1, hwT⟩ := hjcase
      subst hjw1
      rw [slot_wrap w T hw hwT]
      exact hs_new
    · have hj1 : j + 1 < min (T + 1) w := by omega
      have h := hnotin (j + 1) hj1
      intro hc
      apply h
      rw [hc]
      congr 1
      omega
  by_cases hevict : st.minPos = (T + 1) % w
  · rw [if_pos hevict]
    have hc : (T - j0) % w = (T + 1) % w := hj0min.symm.trans hevict
    have hj0w1 : j0 + 1 = w := by
      have hc2 : (T + 1 - (j0 + 1)) % w = (T + 1) % w := by
        rw [show T + 1 - (j0 + 1) = T - j0 from by omega]
        exact hc
      have h0 : (j0 + 1) % w = 0 := mod_sub_cancel w (T + 1) (j0 + 1) (by omega) hc2
      by_cases hj0w2 : j0 + 1 < w
      · rw [Nat.mod_eq_of_lt hj0w2] at h0; omega
      · omega
    have hwT : w ≤ T := by omega
    obtain ⟨hmp_lt, hmp_min⟩ := rescanMin_spec w hw
      (st.buffer.set ((T + 1) % w) (tokenGram k tokens T)) ((T + 1) % w) hTw
    obtain ⟨jm, hjm_lt, hjm_slot⟩ := exists_slot w (T + 1)
      (rescanMin w (st.buffer.set ((T + 1) % w) (tokenGram k tokens T)) ((T + 1) % w))
      hw hmp_lt (by omega)
    rw [← hjm_slot]
    have hmp_val : (st.buffer.set ((T + 1) % w) (tokenGram k tokens T)).getD
        ((T + 1 - jm) % w) 0 = tokenGram k tokens (T - jm) :=
      hactive2 jm (by omega)
    have hoff := jsRem_slot w (T + 1) jm hw hjm_lt (by omega)
    rw [mkFp_eval k w kd tokens _ _ _ _ (-(jm : Int)) hoff]
    have hstart : st.filePos + 1 + -(jm : Int) = ((T - jm : Nat) : Int) := by
      rw [hfile]; omega
    simp only [WInv]
    rw [show k + (T + 1) - 1 = k + T from by omega]
    simp only [Nat.add_sub_cancel]
    refine ⟨by trivial, by rw [hfile]; push_cast; omega, by trivial, hset_len, hactive2, hsent2, ?_, ?_⟩
    · refine ⟨jm, by omega, rfl, ?_, ?_⟩
      · intro j2 hj2
        calc tokenGram k tokens (T - jm) =
            (st.buffer.set ((T + 1) % w) (tokenGram k tokens T)).getD ((T + 1 - jm) % w) 0 :=
              hmp_val.symm
        _ ≤ (st.buffer.set ((T + 1) % w) (tokenGram k tokens T)).getD ((T + 1 - j2) % w) 0 := by
              rw [hjm_slot]
              exact hmp_min _ (Nat.mod_lt _ (by omega))
        _ = tokenGram k tokens (T - j2) := hactive2 j2 hj2
      · refine ⟨_, List.mem_append_right _ (List.mem_singleton_self _), ?_⟩
        exact hmp_val
    · intro fp hfp
      rcases List.mem_append.mp hfp with hold | hnew
      · obtain ⟨p, hp, hs, hst, hh, hd⟩ := hfps fp hold
        exact ⟨p, by omega, hs, hst, hh, hd⟩
      · rw [List.mem_singleton] at hnew
        subst hnew
        refine ⟨T - jm, by omega, ?_, ?_, ?_, ?_⟩
        · exact hstart
        · dsimp only
          rw [hstart]
        · exact hmp_val
        · dsimp only
          have htn : (st.filePos + 1 + -(jm : Int)).toNat = T - jm := by
            rw [hfile]; omega
          rw [htn]
  · rw [if_neg hevict]
    have hold_val : (st.buffer.set ((T + 1) % w) (tokenGram k tokens T)).getD st.minPos 0 =
        tokenGram k tokens (T - 1 - j0) := by
      rw [hget_old st.minPos hevict, hj0min]
      exact hactive j0 hj0lt
    by_cases hle : (st.buffer.set ((T + 1) % w) (tokenGram k tokens T)).getD ((T + 1) % w) 0 ≤
        (st.buffer.set ((T + 1) % w) (tokenGram k tokens T)).getD st.minPos 0
    · rw [if_pos hle]
      have hle2 : tokenGram k tokens T ≤ tokenGram k tokens (T - 1 - j0) := by
        rw [← hget_new, ← hold_val]
        exact hle
      have hoff := jsRem_bufferPos w hw ((T + 1) % w)
      rw [mkFp_eval k w kd tokens _ _ _ _ 0 hoff]
      have hstart : st.filePos + 1 + 0 = ((T : Nat) : Int) := by
        rw [hfile]; omega
      simp only [WInv]
      rw [show k + (T + 1) - 1 = k + T from by omega]
      simp only [Nat.add_sub_cancel]
      refine ⟨by trivial, by rw [hfile]; push_cast; omega, by trivial, hset_len, hactive2, hsent2, ?_, ?_⟩
      · refine ⟨0, by omega, by rw [Nat.sub_zero], ?_, ?_⟩
        · intro j2 hj2
          rw [Nat.sub_zero]
          by_cases h20 : j2 = 0
          · subst h20
            rw [Nat.sub_zero]
          · calc tokenGram k tokens T ≤ tokenGram k tokens (T - 1 - j0) := hle2
            _ ≤ tokenGram k tokens (T - 1 - (j2 - 1)) := hj0arg (j2 - 1) (by omega)
            _ = tokenGram k tokens (T - j2) := by congr 1; omega
        · refine ⟨_, List.mem_append_right _ (List.mem_singleton_self _), ?_⟩
          rw [Nat.sub_zero]
          exact hget_new
      · intro fp hfp
        rcases List.mem_append.mp hfp with hold | hnew
        · obtain ⟨p, hp, hs, hst, hh, hd⟩ := hfps fp hold
          exact ⟨p, by omega, hs, hst, hh, hd⟩
        · rw [List.mem_singleton] at hnew
          subst hnew
          refine ⟨T, by omega, ?_, ?_, ?_, ?_⟩
          · exact hstart
          · dsimp only
            rw [hstart]
          · exact hget_new
          · dsimp only
            have htn : (st.filePos + 1 + 0).toNat = T := by
              rw [hfile]; omega
            rw [htn]
    · rw [if_neg hle]
      have hgt : tokenGram k tokens (T - 1 - j0) < tokenGram k tokens T := by
        have h := Nat.lt_of_not_le hle
        rw [hget_new, hold_val] at h
        exact h
      have hj0ne : j0 + 1 ≠ w := by
        intro hcw
        have hwT : w ≤ T := by omega
        apply hevict
        rw [hj0min, show j0 = w - 1 from by omega, slot_wrap w T hw hwT]
      simp only [WInv]
      rw [show k + (T + 1) - 1 = k + T from by omega]
      simp only [Nat.add_sub_cancel]
      refine ⟨by trivial, by rw [hfile]; push_cast; omega, by trivial, hset_len, hactive2, hsent2, ?_, ?_⟩
      · refine ⟨j0 + 1, by omega, ?_, ?_, ?_⟩
        · dsimp only
          rw [hj0min]
          congr 1
          omega
        · intro j2 hj2
          rw [show T - (j0 + 1) = T - 1 - j0 from by omega]
          by_cases h20 : j2 = 0
          · subst h20
            rw [Nat.sub_zero]
            exact hgt.le
          · calc tokenGram k tokens (T - 1 - j0) ≤
                tokenGram k tokens (T - 1 - (j2 - 1)) := hj0arg (j2 - 1) (by omega)
            _ = tokenGram k tokens (T - j2) := by congr 1; omega
        · refine ⟨fp0, hfp0mem, ?_⟩
          rw [hfp0hash]
          congr 1
          omega
      · intro fp hfp
        obtain ⟨p, hp, hs, hst, hh, hd⟩ := hfps fp hfp
        exact ⟨p, by omega, hs, hst, hh, hd⟩

theorem winv_base (k w : Nat) (hk : 1 ≤ k) (hw : 1 ≤ w) (kd : Bool) (tokens : List String)
    (hlen : k ≤ tokens.length) :
    WInv k w kd tokens 1 (feedN k w kd tokens k) := by
  rw [feedN_k k w hk hw kd tokens hlen]
  have hoff := jsRem_bufferPos w hw (1 % w)
  rw [mkFp_eval k w kd tokens _ _ _ _ 0 hoff]
  have h1w : 1 % w < w := Nat.mod_lt _ (by omega)
  have hget1 : ((List.replicate w maxSafeInteger).set (1 % w) (tokenGram k tokens 0)).getD
      (1 % w) 0 = tokenGram k tokens 0 :=
    getD_set_self _ _ _ _ (by rw [List.length_replicate]; exact h1w)
  simp only [WInv]
  rw [show k + 1 - 1 = k from by omega]
  refine ⟨by trivial, by push_cast; omega, by trivial, ?_, ?_, ?_, ?_, ?_⟩
  · rw [List.length_set, List.length_replicate]
  · intro j hj
    have hj0 : j = 0 := by omega
    subst hj0
    simpa using hget1
  · intro s hs hnotin
    have hs1 : s ≠ 1 % w := by
      have h := hnotin 0 (by omega)
      simpa using h
    rw [getD_set_ne _ _ _ (fun hc => hs1 hc.symm)]
    exact getD_replicate_lt w s _ _ hs
  · refine ⟨0, by omega, by simp, ?_, ?_⟩
    · intro j2 hj2
      have hj0 : j2 = 0 := by omega
      subst hj0
      exact le_refl _
    · refine ⟨_, List.mem_singleton_self _, ?_⟩
      simpa using hget1
  · intro fp hfp
    rw [List.mem_singleton] at hfp
    subst hfp
    refine ⟨0, by omega, by simp, by dsimp only; push_cast; ring, ?_, ?_⟩
    · simpa using hget1
    · simp

theorem winv_holds (k w : Nat) (hk : 1 ≤ k) (hw : 1 ≤ w) (kd : Bool) (tokens : List String) :
    ∀ T, 1 ≤ T → k + T - 1 ≤ tokens.length →
      WInv k w kd tokens T (feedN k w kd tokens (k + T - 1)) := by
  intro T
  induction T with
  | zero => intro h1; omega
  | succ T ih =>
    intro h1 hlen
    by_cases hT0 : T = 0
    · subst hT0
      rw [show k + (0 + 1) - 1 = k from by omega]
      exact winv_base k w hk hw kd tokens (by omega)
    · have hT1 : 1 ≤ T := by omega
      have hstep := winv_step k w hk hw kd tokens T hT1 (by omega) _ (ih hT1 (by omega))
      rw [show k + (T + 1) - 1 = (k + T - 1) + 1 from by omega,
        feedN_succ k w kd tokens (k + T - 1) (by omega)]
      exact hstep

/-! ### The fingerprint list only grows -/

theorem winnowStep_fps (k w : Nat) (kd : Bool) (tokens : List String) (st : WFState) (ht : Nat) :
    ∃ l, (winnowStep k w kd tokens st ht).fps = st.fps ++ l := by
  rw [winnowStep]
  by_cases h1 : st.filePos + 1 < 0
  · rw [if_pos h1]
    exact ⟨[], (List.append_nil _).symm⟩
  · rw [if_neg h1, winnowEmit]
    dsimp only
    by_cases h2 : st.minPos = (st.bufferPos + 1) % w
    · rw [if_pos h2]
      exact ⟨_, rfl⟩
    · rw [if_neg h2]
      by_cases h3 : (st.buffer.set ((st.bufferPos + 1) % w) (st.rh.nextHash ht).2).getD
          ((st.bufferPos + 1) % w) 0 ≤
          (st.buffer.set ((st.bufferPos + 1) % w) (st.rh.nextHash ht).2).getD st.minPos 0
      · rw [if_pos h3]
        exact ⟨_, rfl⟩
      · rw [if_neg h3]
        exact ⟨[], (List.append_nil _).symm⟩

theorem foldl_fps_mono (k w : Nat) (kd : Bool) (tokens : List String) : ∀ (l : List Nat)
    (st : WFState), ∃ tl, (l.foldl (winnowStep k w kd tokens) st).fps = st.fps ++ tl := by
  intro l
  induction l with
  | nil => intro st; exact ⟨[], (List.append_nil _).symm⟩
  | cons x xs ih =>
    intro st
    obtain ⟨t1, h1⟩ := winnowStep_fps k w kd tokens st x
    obtain ⟨t2, h2⟩ := ih (winnowStep k w kd tokens st x)
    exact ⟨t1 ++ t2, by rw [List.foldl_cons, h2, h1, List.append_assoc]⟩

theorem feedN_fps_prefix (k w : Nat) (kd : Bool) (tokens : List String) (n m : Nat)
    (hnm : n ≤ m) :
    ∃ tl, (feedN k w kd tokens m).fps = (feedN k w kd tokens n).fps ++ tl := by
  have hsplit : (tokens.map hashToken).take m =
      (tokens.map hashToken).take n ++ (((tokens.map hashToken).take m).drop n) := by
    have h1 := List.take_append_drop n ((tokens.map hashToken).take m)
    rw [List.take_take, min_eq_left hnm] at h1
    exact h1.symm
  rw [feedN, hsplit, List.foldl_append]
  exact foldl_fps_mono k w kd tokens _ _

/-! ### Claim C10: emitted spans are in bounds -/

/-- Claim C10: every fingerprint emitted by `fingerprints` has `start ≥ 0`
and `stop = start + k - 1 ≤ tokens.length - 1`, so `start` and `stop` are
valid token indices (making the per-token region lookups done by the callers
in-bounds). -/
theorem fingerprint_spans_in_bounds (k w : Nat) (kd : Bool) (tokens : List String)
    (hk : 1 ≤ k) (hw : 1 ≤ w) :
    ∀ fp, fp ∈ fingerprints k w kd tokens → 0 ≤ fp.start ∧
      fp.stop = fp.start + (k : Int) - 1 ∧ fp.stop ≤ (tokens.length : Int) - 1 := by
  intro fp hfp
  by_cases hlen : tokens.length < k
  · rw [(fingerprints_short_input k w kd hk hw).2 tokens hlen] at hfp
    exact absurd hfp (List.not_mem_nil fp)
  · push_neg at hlen
    have h1 : 1 ≤ tokens.length - k + 1 := by omega
    have h2 : k + (tokens.length - k + 1) - 1 = tokens.length := by omega
    have hinv := winv_holds k w hk hw kd tokens (tokens.length - k + 1) h1 (by omega)
    rw [h2] at hinv
    obtain ⟨_, _, _, _, _, _, _, hfps⟩ := hinv
    rw [fingerprints_eq_feedN] at hfp
    obtain ⟨p, hp, hs, hst, _, _⟩ := hfps fp hfp
    refine ⟨by rw [hs]; positivity, by rw [hst, hs], ?_⟩
    rw [hst]
    have hpk : p + k ≤ tokens.length := by omega
    omega

/-- Witness for C10 on the one-token input at `k = w = 1`. -/
theorem fingerprint_spans_in_bounds_witness :
    (1 ≤ 1 ∧ (⟨none, 5378053, 0, 0⟩ : Fingerprint) ∈ fingerprints 1 1 false ["a"]) ∧
    (0 ≤ (⟨none, 5378053, 0, 0⟩ : Fingerprint).start ∧
      (⟨none, 5378053, 0, 0⟩ : Fingerprint).stop =
        (⟨none, 5378053, 0, 0⟩ : Fingerprint).start + (1 : Int) - 1 ∧
      (⟨none, 5378053, 0, 0⟩ : Fingerprint).stop ≤ (["a"].length : Int) - 1) :=
  ⟨⟨by decide, by decide⟩,
    fingerprint_spans_in_bounds 1 1 false ["a"] (by decide) (by decide)
      ⟨none, 5378053, 0, 0⟩ (by decide)⟩

/-! ### Claim C3: similarity of compareTwoFiles -/

theorem fingerprints_ne_nil (k w : Nat) (hk : 1 ≤ k) (hw : 1 ≤ w) (kd : Bool)
    (tokens : List String) (hlen : k ≤ tokens.length) :
    fingerprints k w kd tokens ≠ [] := by
  have h1 : 1 ≤ tokens.length - k + 1 := by omega
  have h2 : k + (tokens.length - k + 1) - 1 = tokens.length := by omega
  have hinv := winv_holds k w hk hw kd tokens (tokens.length - k + 1) h1 (by omega)
  rw [h2] at hinv
  obtain ⟨_, _, _, _, _, _, ⟨_, _, _, _, fp0, hfp0mem, _⟩, _⟩ := hinv
  rw [fingerprints_eq_feedN]
  exact List.ne_nil_of_mem hfp0mem

theorem generateFingerprintHashes_nonempty (k w : Nat) (hk : 1 ≤ k) (hw : 1 ≤ w)
    (tokens : List String) (hlen : k ≤ tokens.length) :
    0 < (generateFingerprintHashes k w tokens).card := by
  rw [generateFingerprintHashes, if_neg (by omega)]
  rw [Finset.card_pos]
  obtain ⟨fp, hfp⟩ := List.exists_mem_of_ne_nil _ (fingerprints_ne_nil k w hk hw true tokens hlen)
  exact ⟨fp.hash, by rw [List.mem_toFinset]; exact List.mem_map_of_mem Fingerprint.hash hfp⟩

/-- Claim C3: the similarity computed by `compareTwoFiles` is symmetric,
always lies in `[0, 1]`, equals `1` for a file compared with itself when it
has at least `k` tokens, and equals the Jaccard index over the two files'
sets of distinct fingerprint hashes (multiplicity ignored). -/
theorem compareTwoFiles_similarity_props (k w : Nat) (tokens1 tokens2 : List String)
    (hk : 1 ≤ k) (hkw : k ≤ w) :
    compareTwoFilesSimilarity k w tokens1 tokens2 =
      compareTwoFilesSimilarity k w tokens2 tokens1 ∧
    0 ≤ compareTwoFilesSimilarity k w tokens1 tokens2 ∧
    compareTwoFilesSimilarity k w tokens1 tokens2 ≤ 1 ∧
    (k ≤ tokens1.length → compareTwoFilesSimilarity k w tokens1 tokens1 = 1) ∧
    compareTwoFilesSimilarity k w tokens1 tokens2 =
      jaccardIndex (generateFingerprintHashes k w tokens1)
        (generateFingerprintHashes k w tokens2) := by
  have hw : 1 ≤ w := by omega
  refine ⟨?_, ?_, ?_, ?_, ?_⟩
  · rw [compareTwoFilesSimilarity, compareTwoFilesSimilarity,
      Finset.inter_comm, Finset.union_comm]
  · rw [compareTwoFilesSimilarity]
    split_ifs with h
    · positivity
    · exact le_refl 0
  · rw [compareTwoFilesSimilarity]
    split_ifs with h
    · rw [div_le_one (by exact_mod_cast h)]
      exact_mod_cast Finset.card_le_card Finset.inter_subset_union
    · exact zero_le_one
  · intro hlen
    rw [compareTwoFilesSimilarity]
    rw [if_pos (by
      rw [Finset.union_self]
      exact generateFingerprintHashes_nonempty k w hk hw tokens1 hlen)]
    rw [Finset.inter_self, Finset.union_self]
    apply div_self
    have := generateFingerprintHashes_nonempty k w hk hw tokens1 hlen
    positivity
  · rw [compareTwoFilesSimilarity, jaccardIndex]
    split_ifs with h
    · rfl
    · push_neg at h
      rw [Nat.le_zero] at h
      rw [h]
      simp

/-- Witness for C3 at `k = 1`, `w = 2`, a one-token file. -/
theorem compareTwoFiles_similarity_props_witness :
    compareTwoFilesSimilarity 1 2 ["a"] ["a"] = 1 :=
  (compareTwoFiles_similarity_props 1 2 ["a"] ["b"] (by decide) (by decide)).2.2.2.1 (by decide)

/-! ### Claim C1: the winnowing guarantee -/

theorem tokenGram_infix (k : Nat) (pre sub suf : List String) (d : Nat)
    (hd : d + k ≤ sub.length) :
    tokenGram k (pre ++ sub ++ suf) (pre.length + d) = tokenGram k sub d := by
  unfold tokenGram kgramHash
  congr 1
  rw [List.map_append, List.map_append, List.append_assoc]
  rw [show pre.length + d = (pre.map hashToken).length + d from by rw [List.length_map]]
  rw [List.drop_append]
  rw [List.drop_append_of_le_length (by rw [List.length_map]; omega)]
  rw [List.take_append_of_le_length (by rw [List.length_drop, List.length_map]; omega)]

/-- For an infix `sub` of length at least `k + w - 1`, the winnowing output
contains a fingerprint carrying the minimum hash over the last `w` k-grams
of `sub` — a quantity depending only on `sub`, not on the surrounding file. -/
theorem winnow_min_of_infix (k w : Nat) (hk : 1 ≤ k) (hw : 1 ≤ w) (kd : Bool)
    (pre sub suf : List String) (hL : k + w - 1 ≤ sub.length) :
    ∃ fp, fp ∈ fingerprints k w kd (pre ++ sub ++ suf) ∧ ∃ j, j < w ∧
      fp.hash = tokenGram k sub (sub.length - k - j) ∧
      ∀ j2, j2 < w → tokenGram k sub (sub.length - k - j) ≤
        tokenGram k sub (sub.length - k - j2) := by
  have hsubk : k ≤ sub.length := by omega
  have hlen_tok : (pre ++ sub ++ suf).length = pre.length + sub.length + suf.length := by
    simp
    omega
  have hT1 : 1 ≤ pre.length + sub.length - k + 1 := by omega
  have hfeed : k + (pre.length + sub.length - k + 1) - 1 = pre.length + sub.length := by omega
  have hinv := winv_holds k w hk hw kd (pre ++ sub ++ suf)
    (pre.length + sub.length - k + 1) hT1 (by omega)
  set T := pre.length + sub.length - k + 1 with hTdef
  obtain ⟨_, _, _, _, _, _, ⟨j0, hj0lt, _, hj0arg, fp0, hfp0mem, hfp0hash⟩, _⟩ := hinv
  have hminTw : min T w = w := by omega
  have hidx : ∀ j, j < w → T - 1 - j = pre.length + (sub.length - k - j) := by
    intro j hj
    omega
  have hgram : ∀ j, j < w → tokenGram k (pre ++ sub ++ suf) (T - 1 - j) =
      tokenGram k sub (sub.length - k - j) := by
    intro j hj
    rw [hidx j hj, tokenGram_infix k pre sub suf _ (by omega)]
  obtain ⟨tl, htl⟩ := feedN_fps_prefix k w kd (pre ++ sub ++ suf)
    (k + T - 1) (pre ++ sub ++ suf).length (by omega)
  refine ⟨fp0, ?_, j0, by omega, ?_, ?_⟩
  · rw [fingerprints_eq_feedN, htl]
    exact List.mem_append_left _ hfp0mem
  · rw [hfp0hash, hgram j0 (by omega)]
  · intro j2 hj2
    have h := hj0arg j2 (by omega)
    rw [hgram j0 (by omega), hgram j2 hj2] at h
    exact h

/-- Claim C1 (winnowing guarantee): for `k ≥ 1` and `w ≥ 1`, any two token
sequences sharing a contiguous subsequence of length at least `k + w - 1`
have fingerprint sequences that share at least one hash value. -/
theorem winnowing_guarantee (k w : Nat) (hk : 1 ≤ k) (hw : 1 ≤ w) (kd1 kd2 : Bool)
    (tokensA tokensB sub : List String) (hL : k + w - 1 ≤ sub.length)
    (hA : sub <:+: tokensA) (hB : sub <:+: tokensB) :
    ∃ fa, fa ∈ fingerprints k w kd1 tokensA ∧
      ∃ fb, fb ∈ fingerprints k w kd2 tokensB ∧ fa.hash = fb.hash := by
  obtain ⟨preA, sufA, rfl⟩ := hA
  obtain ⟨preB, sufB, rfl⟩ := hB
  obtain ⟨fa, hfa_mem, ja, hja, hfa_hash, hfa_min⟩ :=
    winnow_min_of_infix k w hk hw kd1 preA sub sufA hL
  obtain ⟨fb, hfb_mem, jb, hjb, hfb_hash, hfb_min⟩ :=
    winnow_min_of_infix k w hk hw kd2 preB sub sufB hL
  refine ⟨fa, hfa_mem, fb, hfb_mem, ?_⟩
  rw [hfa_hash, hfb_hash]
  exact le_antisymm (hfa_min jb hjb) (hfb_min ja hja)

/-- Witness for C1 at `k = 2`, `w = 2`: the three-token run `[a, b, c]`
shared by two otherwise different files. -/
theorem winnowing_guarantee_witness :
    (2 + 2 - 1 ≤ (["a", "b", "c"] : List String).length ∧
      (["a", "b", "c"] : List String) <:+: ["x", "a", "b", "c"] ∧
      (["a", "b", "c"] : List String) <:+: ["a", "b", "c", "y", "z"]) ∧
    ∃ fa, fa ∈ fingerprints 2 2 false ["x", "a", "b", "c"] ∧
      ∃ fb, fb ∈ fingerprints 2 2 true ["a", "b", "c", "y", "z"] ∧ fa.hash = fb.hash :=
  ⟨⟨by decide, by decide, by decide⟩,
    winnowing_guarantee 2 2 (by decide) (by decide) false true
      ["x", "a", "b", "c"] ["a", "b", "c", "y", "z"] ["a", "b", "c"]
      (by decide) (by decide) (by decide)⟩

/-! ### Claim C4: tie-break and re-scan discipline of the winnowing selection -/

/-- Claim C4: in the main phase, when the newly entering k-gram hash ties the
current window minimum (and the minimum's slot is not the one being
overwritten), the rightmost (most recent) position becomes the selected
minimum and a new fingerprint is emitted for it (its `start` is the newest
k-gram's position and its hash the new value); moreover, without eviction of
the minimum's slot the selected slot can only stay put or move to the newest
slot — a full window re-scan (which could select any slot) happens only in
the eviction branch. -/
theorem winnow_tie_rightmost (k w : Nat) (kd : Bool) (tokens : List String)
    (st : WFState) (ht : Nat) (hw : 1 ≤ w) (hblen : st.buffer.length = w)
    (hfile : ¬ (st.filePos + 1 < 0)) (hne : st.minPos ≠ (st.bufferPos + 1) % w) :
    ((st.rh.nextHash ht).2 = st.buffer.getD st.minPos 0 →
      (winnowStep k w kd tokens st ht).minPos = (st.bufferPos + 1) % w ∧
      ∃ fp, (winnowStep k w kd tokens st ht).fps = st.fps ++ [fp] ∧
        fp.start = st.filePos + 1 ∧ fp.hash = (st.rh.nextHash ht).2) ∧
    ((winnowStep k w kd tokens st ht).minPos = st.minPos ∨
      (winnowStep k w kd tokens st ht).minPos = (st.bufferPos + 1) % w) := by
  rw [winnowStep, if_neg hfile, winnowEmit]
  dsimp only
  rw [if_neg hne]
  have hbp_lt : (st.bufferPos + 1) % w < w := Nat.mod_lt _ (by omega)
  have hget_newpos : (st.buffer.set ((st.bufferPos + 1) % w) (st.rh.nextHash ht).2).getD
      ((st.bufferPos + 1) % w) 0 = (st.rh.nextHash ht).2 :=
    getD_set_self _ _ _ _ (by rw [hblen]; exact hbp_lt)
  have hget_minpos : (st.buffer.set ((st.bufferPos + 1) % w) (st.rh.nextHash ht).2).getD
      st.minPos 0 = st.buffer.getD st.minPos 0 :=
    getD_set_ne _ _ _ (fun hc => hne hc.symm)
  constructor
  · intro htie
    have hcond : (st.buffer.set ((st.bufferPos + 1) % w) (st.rh.nextHash ht).2).getD
        ((st.bufferPos + 1) % w) 0 ≤
        (st.buffer.set ((st.bufferPos + 1) % w) (st.rh.nextHash ht).2).getD st.minPos 0 := by
      rw [hget_newpos, hget_minpos, ← htie]
    rw [if_pos hcond]
    refine ⟨rfl, _, rfl, ?_, ?_⟩
    · simp only [mkFp, jsRem_bufferPos w hw, add_zero]
    · simp only [mkFp]
      exact hget_newpos
  · by_cases hcond : (st.buffer.set ((st.bufferPos + 1) % w) (st.rh.nextHash ht).2).getD
        ((st.bufferPos + 1) % w) 0 ≤
        (st.buffer.set ((st.bufferPos + 1) % w) (st.rh.nextHash ht).2).getD st.minPos 0
    · rw [if_pos hcond]
      exact Or.inr rfl
    · rw [if_neg hcond]
      exact Or.inl rfl

/-- Witness for C4 on a concrete two-slot window state with a tie. -/
theorem winnow_tie_rightmost_witness :
    (winnowStep 1 2 false [] ⟨⟨1, 0, [0], 0, 0⟩, 0, 0, 0, [5, 99], []⟩ 5).minPos =
      ((⟨⟨1, 0, [0], 0, 0⟩, 0, 0, 0, [5, 99], []⟩ : WFState).bufferPos + 1) % 2 ∧
    ∃ fp, (winnowStep 1 2 false [] ⟨⟨1, 0, [0], 0, 0⟩, 0, 0, 0, [5, 99], []⟩ 5).fps =
        (⟨⟨1, 0, [0], 0, 0⟩, 0, 0, 0, [5, 99], []⟩ : WFState).fps ++ [fp] ∧
      fp.start = (⟨⟨1, 0, [0], 0, 0⟩, 0, 0, 0, [5, 99], []⟩ : WFState).filePos + 1 ∧
      fp.hash = (((⟨1, 0, [0], 0, 0⟩ : RollingHash)).nextHash 5).2 :=
  (winnow_tie_rightmost 1 2 false [] ⟨⟨1, 0, [0], 0, 0⟩, 0, 0, 0, [5, 99], []⟩ 5
    (by decide) (by decide) (by decide) (by decide)).1 (by decide)

/-! ### Claim C9: the clustering criteria of clusterMatchesIntoRegions -/

/-- The joining condition exactly as the claim states it: gap in file A at
most `2k`, gap in file B at most `2k`, positional drift at most `k`. -/
def joinsClusterSpec (k : Nat) (lastMatch m : MatchPair) : Prop :=
  m.fp1.position - lastMatch.fp1.stop ≤ 2 * (k : Int) ∧
  |m.fp2.position - lastMatch.fp2.stop| ≤ 2 * (k : Int) ∧
  |(m.fp1.position - lastMatch.fp1.position) -
    (m.fp2.position - lastMatch.fp2.position)| ≤ (k : Int)

instance (k : Nat) (lastMatch m : MatchPair) : Decidable (joinsClusterSpec k lastMatch m) := by
  unfold joinsClusterSpec
  infer_instance

theorem shouldMergeMatch_iff (k : Nat) (lastMatch m : MatchPair) :
    shouldMergeMatch k lastMatch m = true ↔ joinsClusterSpec k lastMatch m := by
  simp only [shouldMergeMatch, joinsClusterSpec, Bool.and_eq_true, decide_eq_true_eq]
  rw [mul_comm (k : Int) 2]
  tauto

/-- Claim C9: a candidate match joins the current (nonempty) cluster if and
only if its gap from the cluster's last match in file A is at most `2k`, its
gap in file B is at most `2k`, and the positional drift from the previous
match is at most `k`; otherwise the cluster is closed, and a closed cluster
with fewer than two matches is discarded, producing no `SharedRegion`. -/
theorem clusterStep_joins_iff (k : Nat) (tokens1 tokens2 : List String)
    (regions : List SharedRegion) (c : MatchPair) (cs : List MatchPair) (m : MatchPair) :
    (joinsClusterSpec k ((c :: cs).getLast (List.cons_ne_nil c cs)) m →
      clusterStep k tokens1 tokens2 (regions, c :: cs) m = (regions, (c :: cs) ++ [m])) ∧
    (¬ joinsClusterSpec k ((c :: cs).getLast (List.cons_ne_nil c cs)) m →
      clusterStep k tokens1 tokens2 (regions, c :: cs) m =
        (regions ++ (if 2 ≤ (c :: cs).length then
          [createSharedRegion k tokens1 tokens2 (c :: cs)] else []), [m])) ∧
    (cs = [] → ¬ joinsClusterSpec k ((c :: cs).getLast (List.cons_ne_nil c cs)) m →
      clusterStep k tokens1 tokens2 (regions, c :: cs) m = (regions, [m])) := by
  refine ⟨?_, ?_, ?_⟩
  · intro h
    rw [clusterStep, if_pos ((shouldMergeMatch_iff k _ m).mpr h)]
  · intro h
    rw [clusterStep, if_neg (fun hc => h ((shouldMergeMatch_iff k _ m).mp hc))]
  · intro hcs h
    subst hcs
    rw [clusterStep, if_neg (fun hc => h ((shouldMergeMatch_iff k _ m).mp hc))]
    rw [if_neg (by simp)]
    rw [List.append_nil]

/-- Witness for C9: with `k = 1`, a match `100` tokens further on in file A
does not join, and the singleton cluster is discarded without a region. -/
theorem clusterStep_joins_iff_witness :
    clusterStep 1 [] [] ([], [⟨⟨0, 0, 0⟩, ⟨0, 0, 0⟩, 0⟩])
        ⟨⟨100, 100, 100⟩, ⟨0, 0, 0⟩, 100⟩ =
      ([], [⟨⟨100, 100, 100⟩, ⟨0, 0, 0⟩, 100⟩]) ∧
    clusterStep 1 [] [] ([], [⟨⟨0, 0, 0⟩, ⟨0, 0, 0⟩, 0⟩]) ⟨⟨1, 1, 1⟩, ⟨1, 1, 1⟩, 0⟩ =
      ([], [⟨⟨0, 0, 0⟩, ⟨0, 0, 0⟩, 0⟩] ++ [⟨⟨1, 1, 1⟩, ⟨1, 1, 1⟩, 0⟩]) :=
  ⟨(clusterStep_joins_iff 1 [] [] [] ⟨⟨0, 0, 0⟩, ⟨0, 0, 0⟩, 0⟩ []
      ⟨⟨100, 100, 100⟩, ⟨0, 0, 0⟩, 100⟩).2.2 rfl (by decide),
   (clusterStep_joins_iff 1 [] [] [] ⟨⟨0, 0, 0⟩, ⟨0, 0, 0⟩, 0⟩ []
      ⟨⟨1, 1, 1⟩, ⟨1, 1, 1⟩, 0⟩).1 (by decide)⟩
